import Mathlib

/-!
# The alarm scheduler of `3.3.4-alarm_cond.c`

A shallow embedding of the alarm list, of `alarm_insert`, of the worker
`alarm_thread` and of the intake loop of `main`, followed by the properties
of the specification that were checked against it. The lockers of
`3.5.2.1-backoff.c` have their own section (`Backoff`) behind the definitions
of the scheduler.

Conventions of the embedding:

* `time_t` and `int` values are integers (`Int`); the additions of the program
  (`time(NULL) + alarm->seconds`) stay far from the limits of `time_t`. A
  number read by `%d` is cut to the 32 bits of the `int` it is stored in
  (`to_int`).
* The singly linked `alarm_list` is a `List alarm_t`, front node first; an
  alarm is the value of its record.
* Everything the two threads do to the shared data happens with `alarm_mutex`
  held, so a run is a sequence of atomic sections, one per `Event`, with the
  clock advancing in between (`Event.tick`): the clock never goes back and
  does not change within a section.
* A wait returns 0 when the condition was signalled while the worker was
  waiting (`Event.wake`), and may return 0 at any other time as well
  (`Event.spurious`). A signal sent while the worker is not waiting is lost.
* The clock of a state is what `time(NULL)` reads, in whole seconds.
  `pthread_cond_timedwait` measures its wake time on `CLOCK_REALTIME` itself,
  and `time` may read that clock a tick behind: the wait can return
  `ETIMEDOUT` when `time(NULL)` has reached the wake time
  (`Event.timeout`, `wait_times_out`) and also while `time(NULL)` still reads
  the second before it (`Happening.early_timeout`, `wait_times_out_early`).
  In both cases no signal was sent to the waiting worker before. The runs of
  `run` have the timeouts of the first kind only, the runs of `real_run` have
  both.
* `out` is what `alarm_thread` prints on `stdout`; the prompt and the
  "Bad command" message of `main` are left out.
-/

namespace AlarmCond

/-! ## Data model -/

/-- The alarm record `alarm_t` (lines 8-12): the requested delay, the absolute
expiry time and the message text. -/
structure alarm_t where
  seconds : Int
  time : Int
  message : List Char
deriving DecidableEq, Repr

/-- The shared data guarded by `alarm_mutex`: the list `alarm_list`
(line 35), the variable `current_alarm` (line 42), and the number of calls of
`pthread_cond_signal(&alarm_cond)` made so far. -/
structure Store where
  alarm_list : List alarm_t
  current_alarm : Int
  signals : Nat
deriving DecidableEq, Repr

/-- Ascending order of the expiry times of a list of alarms. -/
def sorted_by_time (l : List alarm_t) : Prop :=
  l.Pairwise (fun x y => x.time ≤ y.time)

instance (l : List alarm_t) : Decidable (sorted_by_time l) := by
  unfold sorted_by_time; infer_instance

/-- In the list `l` the alarm `a` comes before the alarm `b`: the first place
of `a` is before the first place of `b`. -/
def precedes (a b : alarm_t) (l : List alarm_t) : Prop := l.indexOf a < l.indexOf b

instance (a b : alarm_t) (l : List alarm_t) : Decidable (precedes a b l) := by
  unfold precedes; infer_instance

/-! ## `alarm_insert` -/

/-- The scan of lines 98-132. `prev` holds the nodes already walked past, in
list order (`[]` stands for `prev == NULL`), the second argument is `next` and
the nodes behind it. The result is the pair `(prev, next)` with which the
loop is left: by `break` at the first node with `alarm->time <= next->alarm->time`,
or with `next == NULL`. -/
def scan (alarm : alarm_t) : List alarm_t → List alarm_t → List alarm_t × List alarm_t
  | prev, [] => (prev, [])
  | prev, n :: rest =>
    if alarm.time ≤ n.time then (prev, n :: rest) else scan alarm (prev ++ [n]) rest

/-- The list after the splice of lines 112-126 and 145-164: the new node is
linked behind `prev` (or becomes the head when `prev == NULL`) and its `next`
pointer is `next`. -/
def splice (alarm : alarm_t) (l : List alarm_t) : List alarm_t :=
  (scan alarm [] l).1 ++ alarm :: (scan alarm [] l).2

/-- The function `alarm_insert` (lines 80-181), called with the mutex held: the
ordered insertion, then the test of lines 177-180 that sets `current_alarm` and
signals the condition variable. -/
def alarm_insert (alarm : alarm_t) (st : Store) : Store :=
  if st.current_alarm = 0 ∨ alarm.time < st.current_alarm then
    { alarm_list := splice alarm st.alarm_list
      current_alarm := alarm.time
      signals := st.signals + 1 }
  else
    { alarm_list := splice alarm st.alarm_list
      current_alarm := st.current_alarm
      signals := st.signals }

/-! ## The worker `alarm_thread` -/

/-- A line printed on `stdout` by `alarm_thread`. -/
inductive Out
  /-- The line of `printf("Spurious wakeup\n")`, line 208. -/
  | spurious
  /-- The line of `printf("Expired\n")`, line 254. -/
  | expired
  /-- The line of `printf("(%d) %s\n", alarm->seconds, alarm->message)`, line 276. -/
  | fired (alarm : alarm_t)
deriving DecidableEq, Repr

/-- The text of an output line. -/
def render : Out → String
  | Out.spurious => "Spurious wakeup\n"
  | Out.expired => "Expired\n"
  | Out.fired alarm =>
    "(" ++ toString alarm.seconds ++ ") " ++ String.mk alarm.message ++ "\n"

/-- The alarms of the `(<delay>) <message>` lines of an output, in order. -/
def fired : List Out → List alarm_t
  | [] => []
  | Out.fired alarm :: rest => alarm :: fired rest
  | Out.spurious :: rest => fired rest
  | Out.expired :: rest => fired rest

/-- Where `alarm_thread` stands between two atomic sections.
* `unlocked`: before `pthread_mutex_lock` of line 194;
* `loop_top`: at line 196 with the mutex held;
* `cond_wait seen`: blocked in `pthread_cond_wait` (line 202), mutex released;
  `seen` is the number of signals that had been sent when the wait began;
* `timedwait alarm seen`: blocked in `pthread_cond_timedwait` (line 247) with the
  popped `alarm` in hand, mutex released; `seen` as before;
* `timed_out alarm`: the timed wait has timed out and the worker is about to
  take the mutex again and return `ETIMEDOUT`. -/
inductive Pc
  | unlocked
  | loop_top
  | cond_wait (seen : Nat)
  | timedwait (alarm : alarm_t) (seen : Nat)
  | timed_out (alarm : alarm_t)
deriving DecidableEq, Repr

/-- The state of the process: the shared data, the position of the worker, the
value `time(NULL)` returns, and what `alarm_thread` has printed. -/
structure State where
  store : Store
  pc : Pc
  clock : Int
  out : List Out
deriving DecidableEq, Repr

/-- The alarm the worker has popped and not yet fired or reinserted. -/
def held (s : State) : List alarm_t :=
  match s.pc with
  | Pc.timedwait alarm _ => [alarm]
  | Pc.timed_out alarm => [alarm]
  | _ => []

/-- Lines 207-280, entered with the mutex held once the loop of line 201 is
left: the front alarm is popped; if it is due it is printed and freed, otherwise
`current_alarm` is set and the timed wait begins (the test of line 246 holds
at its first evaluation, `current_alarm` having just been assigned). -/
def pop_front (s : State) : State :=
  match s.store.alarm_list with
  | [] => { s with out := s.out ++ [Out.spurious], pc := Pc.loop_top }
  | alarm :: rest =>
    if alarm.time ≤ s.clock then
      { s with
        store := { s.store with alarm_list := rest }
        out := s.out ++ [Out.fired alarm]
        pc := Pc.loop_top }
    else
      { s with
        store := { s.store with alarm_list := rest, current_alarm := alarm.time }
        pc := Pc.timedwait alarm s.store.signals }

/-- Lines 196-203 from the top of the loop: `current_alarm = 0`, then either
the wait on the empty list or the handling of the front alarm. -/
def loop_iteration (s : State) : State :=
  if s.store.alarm_list = [] then
    { s with
      store := { s.store with current_alarm := 0 }
      pc := Pc.cond_wait s.store.signals }
  else
    pop_front { s with store := { s.store with current_alarm := 0 } }

/-- Lines 253-257 and 275-279: `pthread_cond_timedwait` has returned
`ETIMEDOUT`; "Expired" is printed, then the alarm's line, and the alarm is
freed. -/
def expire (alarm : alarm_t) (s : State) : State :=
  { s with out := s.out ++ [Out.expired, Out.fired alarm], pc := Pc.loop_top }

/-- The wait the worker is blocked in, `pthread_cond_wait` or
`pthread_cond_timedwait`, returns 0 (signal or spurious wakeup) and the worker
runs on with the mutex held.
* From line 202 the loop test of line 201 is repeated: on the empty list the
  wait begins anew.
* From line 247 the loop test of line 246 is repeated; when it fails the alarm
  is not expired and is put back with `alarm_insert` (line 267). -/
def wait_returns (s : State) : State :=
  match s.pc with
  | Pc.cond_wait _ =>
    if s.store.alarm_list = [] then { s with pc := Pc.cond_wait s.store.signals }
    else pop_front s
  | Pc.timedwait alarm _ =>
    if s.store.current_alarm = alarm.time then
      { s with pc := Pc.timedwait alarm s.store.signals }
    else
      { s with store := alarm_insert alarm s.store, pc := Pc.loop_top }
  | _ => s

/-- The condition was signalled since the wait the worker is blocked in began. -/
def signalled (s : State) : Bool :=
  match s.pc with
  | Pc.cond_wait seen => decide (s.store.signals ≠ seen)
  | Pc.timedwait _ seen => decide (s.store.signals ≠ seen)
  | _ => false

/-- The timed wait of line 247 times out, at a moment when `time(NULL)` has
reached the wake time `cond_time.tv_sec = alarm->time`: no signal was sent
since the wait began; otherwise nothing happens. The timeout that comes while
`time(NULL)` still reads less is `wait_times_out_early`. -/
def wait_times_out (s : State) : State :=
  match s.pc with
  | Pc.timedwait alarm seen =>
    if alarm.time ≤ s.clock ∧ s.store.signals = seen then
      { s with pc := Pc.timed_out alarm }
    else s
  | _ => s

/-- The timed wait of line 247 times out at a moment when `time(NULL)` still
reads the second before the wake time: `pthread_cond_timedwait` compares
`cond_time` (`tv_sec = alarm->time`, `tv_nsec = 0`) with `CLOCK_REALTIME`,
which has reached it, while `time` reads the clock a tick behind. No signal
was sent since the wait began; otherwise nothing happens. -/
def wait_times_out_early (s : State) : State :=
  match s.pc with
  | Pc.timedwait alarm seen =>
    if alarm.time = s.clock + 1 ∧ s.store.signals = seen then
      { s with pc := Pc.timed_out alarm }
    else s
  | _ => s

/-! ## The intake loop of `main` -/

/-- The C string held in a buffer: the characters before the first NUL. -/
def cstr (buf : List Char) : List Char := buf.takeWhile (fun c => c.toNat ≠ 0)

/-- The white-space characters of `isspace` in the C locale. -/
def isspace (c : Char) : Bool := c.toNat = 32 || (9 ≤ c.toNat && c.toNat ≤ 13)

/-- The decimal digits. -/
def isdigit (c : Char) : Bool := 48 ≤ c.toNat && c.toNat ≤ 57

/-- A non-empty run of decimal digits and its value, with the rest of the input. -/
def digit_run (t : List Char) : Option (Nat × List Char) :=
  if t.takeWhile isdigit = [] then none
  else some ((t.takeWhile isdigit).foldl (fun n c => 10 * n + (c.toNat - 48)) 0,
    t.dropWhile isdigit)

/-- The value the `int` of `%d` holds for the number `v` that was read, with
the GNU C library and a 64-bit `long`: the digits are converted as `strtol`
does, which limits the value to the range of `long`, and the store into the
`int` keeps the low 32 bits, in two's complement. A number that fits in an
`int` is kept as it is; "4294967281" is stored as -15. The constants are
`2 ^ 63`, `2 ^ 63 - 1`, `2 ^ 31` and `2 ^ 32`. -/
def to_int (v : Int) : Int :=
  (max (-9223372036854775808) (min v 9223372036854775807) + 2147483648) % 4294967296
    - 2147483648

/-- The conversion `%d` of `sscanf`: leading white space is skipped, then an
optional sign and a non-empty run of digits are read. The value is the one
the program's `int` holds (`to_int`). -/
def scan_d (input : List Char) : Option (Int × List Char) :=
  match input.dropWhile isspace with
  | [] => none
  | c :: r =>
    if c.toNat = 45 then (digit_run r).map (fun p => (to_int (-(p.1 : Int)), p.2))
    else if c.toNat = 43 then (digit_run r).map (fun p => (to_int (p.1 : Int), p.2))
    else (digit_run (c :: r)).map (fun p => (to_int (p.1 : Int), p.2))

/-- The call `sscanf(line, "%d %64[^\n]", &alarm->seconds, alarm->message)` of
lines 313-316: `some (seconds, message)` when it returns 2, `none` when it
returns less. The blank of the format skips any white space; `%64[^\n]` then
takes up to 64 characters other than the newline, at least one. -/
def sscanf_alarm (str : List Char) : Option (Int × List Char) :=
  match scan_d str with
  | none => none
  | some (seconds, rest) =>
    if ((rest.dropWhile isspace).takeWhile (fun c => c.toNat ≠ 10)).take 64 = [] then none
    else some (seconds, ((rest.dropWhile isspace).takeWhile (fun c => c.toNat ≠ 10)).take 64)

/-- The text begins, after white space, with a decimal number: a digit, or a
sign followed by a digit. -/
def starts_number (str : List Char) : Bool :=
  match str.dropWhile isspace with
  | [] => false
  | [c] => isdigit c
  | c :: d :: _ => isdigit c || ((c.toNat = 45 || c.toNat = 43) && isdigit d)

/-- What follows the leading white space, the optional sign and the digits. -/
def after_number (str : List Char) : List Char :=
  match str.dropWhile isspace with
  | [] => []
  | c :: r =>
    if c.toNat = 45 ∨ c.toNat = 43 then r.dropWhile isdigit else (c :: r).dropWhile isdigit

/-- The message of a line: what follows the number and the white space behind
it, up to the end of the line. -/
def message_text (str : List Char) : List Char :=
  ((after_number str).dropWhile isspace).takeWhile (fun c => c.toNat ≠ 10)

/-- One turn of the loop of `main` (lines 296-333) on the buffer `line` that
`fgets` filled: a line of length at most 1 is skipped, one that `sscanf` does
not parse is answered with "Bad command" on `stderr`, and otherwise the alarm is
given its expiry time and inserted with the mutex held (lines 323-331). -/
def main_loop (line : List Char) (s : State) : State :=
  if (cstr line).length ≤ 1 then s
  else
    match sscanf_alarm (cstr line) with
    | none => s
    | some (seconds, message) =>
      { s with
        store := alarm_insert
          { seconds := seconds, time := s.clock + seconds, message := message } s.store }

/-! ## Runs -/

/-- The atomic sections of a run.
* `tick d`: `d` seconds pass;
* `input line`: `main` handles the line `fgets` returned;
* `iter`: the worker, not blocked in a wait, takes the mutex if it does not
  hold it and runs on: one iteration from the top of its loop, or, after a
  timeout, the return of `ETIMEDOUT` and the firing;
* `wake`: the wait the worker is blocked in returns 0 because the condition
  was signalled;
* `spurious`: the wait the worker is blocked in returns 0 for no reason;
* `timeout`: the timed wait the worker is blocked in times out, `time(NULL)`
  having reached the wake time. -/
inductive Event
  | tick (d : Nat)
  | input (line : List Char)
  | iter
  | wake
  | spurious
  | timeout
deriving DecidableEq, Repr

/-- One atomic section. An event that cannot happen in the state leaves it as
it is: `main` cannot take the mutex while the worker holds it (`loop_top`), and
the worker events apply only at the matching position. -/
def step (s : State) : Event → State
  | Event.tick d => { s with clock := s.clock + d }
  | Event.input line =>
    match s.pc with
    | Pc.loop_top => s
    | _ => main_loop line s
  | Event.iter =>
    match s.pc with
    | Pc.unlocked => loop_iteration s
    | Pc.loop_top => loop_iteration s
    | Pc.timed_out alarm => expire alarm s
    | _ => s
  | Event.wake => if signalled s then wait_returns s else s
  | Event.spurious => wait_returns s
  | Event.timeout => wait_times_out s

/-- A run: the events one after the other. -/
def run (s : State) (es : List Event) : State := es.foldl step s

/-- The alarm `main` inserts in a step, if it inserts one. -/
def accepted (s : State) : Event → List alarm_t
  | Event.input line =>
    match s.pc with
    | Pc.loop_top => []
    | _ =>
      if (cstr line).length ≤ 1 then []
      else
        match sscanf_alarm (cstr line) with
        | none => []
        | some (seconds, message) =>
          [{ seconds := seconds, time := s.clock + seconds, message := message }]
  | _ => []

/-- The alarms `main` inserts over a run, in order. -/
def submitted (s : State) : List Event → List alarm_t
  | [] => []
  | e :: es => accepted s e ++ submitted (step s e) es

/-- What a step prints. -/
def printed (s : State) (e : Event) : List Out := (step s e).out.drop s.out.length

/-- The atomic sections of a run in which `time(NULL)` may lag behind the clock
of `pthread_cond_timedwait`: the events above, and the timeout of the timed
wait that comes while `time(NULL)` still reads the second before the wake
time. -/
inductive Happening
  | event (e : Event)
  | early_timeout
deriving DecidableEq, Repr

/-- One atomic section of such a run. -/
def real_step (s : State) : Happening → State
  | Happening.event e => step s e
  | Happening.early_timeout => wait_times_out_early s

/-- A run with both kinds of timeout. -/
def real_run (s : State) (hs : List Happening) : State := hs.foldl real_step s

/-- The alarm `main` inserts in a step of such a run, if it inserts one. -/
def real_accepted (s : State) : Happening → List alarm_t
  | Happening.event e => accepted s e
  | Happening.early_timeout => []

/-- The alarms `main` inserts over such a run, in order. -/
def real_submitted (s : State) : List Happening → List alarm_t
  | [] => []
  | h :: hs => real_accepted s h ++ real_submitted (real_step s h) hs

/-- The steps of a run, case by case: `Move s acc t` says that a step leads from
`s` to `t` while `main` inserts the alarms `acc` (none or one).
* `stay`: nothing happens (the event does not apply or a line is rejected);
* `reidle`: the idle worker wakes to an empty list and waits again;
* `tick`: time passes;
* `insert`: `main` inserts an alarm due at `time(NULL) + seconds`;
* `idle`: the worker finds the list empty at the top of its loop;
* `fire`: the worker pops a due alarm and prints it;
* `watch`: the worker pops an alarm that is not due and starts the timed wait;
* `rewait`: the timed wait returned 0 with `current_alarm` unchanged;
* `preempt`: the timed wait returned 0 with `current_alarm` changed;
* `times_out`: the timed wait times out;
* `expire`: the worker returns from the timed-out wait and prints the alarm. -/
inductive Move (s : State) : List alarm_t → State → Prop
  | stay : Move s [] s
  | reidle (seen : Nat) (hpc : s.pc = Pc.cond_wait seen) (hl : s.store.alarm_list = []) :
      Move s [] (State.mk s.store (Pc.cond_wait s.store.signals) s.clock s.out)
  | tick (d : Nat) : Move s [] (State.mk s.store s.pc (s.clock + d) s.out)
  | insert (alarm : alarm_t) (hpc : s.pc ≠ Pc.loop_top)
      (htime : alarm.time = s.clock + alarm.seconds) :
      Move s [alarm] (State.mk (alarm_insert alarm s.store) s.pc s.clock s.out)
  | idle (hpc : s.pc = Pc.unlocked ∨ s.pc = Pc.loop_top) (hl : s.store.alarm_list = []) :
      Move s [] (State.mk (Store.mk s.store.alarm_list 0 s.store.signals)
        (Pc.cond_wait s.store.signals) s.clock s.out)
  | fire (alarm : alarm_t) (rest : List alarm_t) (cur : Int)
      (hpc : s.pc = Pc.unlocked ∨ s.pc = Pc.loop_top ∨ ∃ n, s.pc = Pc.cond_wait n)
      (hl : s.store.alarm_list = alarm :: rest) (hdue : alarm.time ≤ s.clock) :
      Move s [] (State.mk (Store.mk rest cur s.store.signals)
        Pc.loop_top s.clock (s.out ++ [Out.fired alarm]))
  | watch (alarm : alarm_t) (rest : List alarm_t)
      (hpc : s.pc = Pc.unlocked ∨ s.pc = Pc.loop_top ∨ ∃ n, s.pc = Pc.cond_wait n)
      (hl : s.store.alarm_list = alarm :: rest) (hnot : ¬ alarm.time ≤ s.clock) :
      Move s [] (State.mk (Store.mk rest alarm.time s.store.signals)
        (Pc.timedwait alarm s.store.signals) s.clock s.out)
  | rewait (alarm : alarm_t) (seen : Nat) (hpc : s.pc = Pc.timedwait alarm seen)
      (hcur : s.store.current_alarm = alarm.time) :
      Move s [] (State.mk s.store (Pc.timedwait alarm s.store.signals) s.clock s.out)
  | preempt (alarm : alarm_t) (seen : Nat) (hpc : s.pc = Pc.timedwait alarm seen)
      (hcur : ¬ s.store.current_alarm = alarm.time) :
      Move s [] (State.mk (alarm_insert alarm s.store) Pc.loop_top s.clock s.out)
  | times_out (alarm : alarm_t) (seen : Nat) (hpc : s.pc = Pc.timedwait alarm seen)
      (hdue : alarm.time ≤ s.clock) (hsig : s.store.signals = seen) :
      Move s [] (State.mk s.store (Pc.timed_out alarm) s.clock s.out)
  | expire (alarm : alarm_t) (hpc : s.pc = Pc.timed_out alarm) :
      Move s [] (State.mk s.store Pc.loop_top s.clock
        (s.out ++ [Out.expired, Out.fired alarm]))

/-- Once the timed wait has timed out the clock has reached the wake time. -/
def timed_ok (s : State) : Prop := ∀ a, s.pc = Pc.timed_out a → a.time ≤ s.clock

/-- What holds in every state of a run that starts with a positive clock and
in which `main` inserts no alarm with a delay below `k`, where `k` is 0 for a
run without early timeout and 1 for a run with early timeouts.
* `slack`: `k` is not negative;
* `sorted`: the list is in ascending order of expiry time;
* `clock_pos`: the clock is positive;
* `fired_le_clock`: every printed alarm was due, or due `k` seconds later;
* `fired_sorted`: the printed alarms are in ascending order of expiry time;
* `fired_le`: no alarm still held or listed is due before a printed one;
* `pos`: expiry times are positive;
* `watch`: during the timed wait on `a`, `current_alarm` is not 0 and not
  after `a`; while it is `a`'s expiry time no listed alarm is due before `a`; and
  it is `a`'s expiry time as long as no signal was sent since the wait began;
* `timed`: after the timeout the clock has reached `a`'s expiry time, up to
  `k` seconds, and no listed alarm is due before `a`. -/
structure Inv (k : Int) (s : State) : Prop where
  slack : 0 ≤ k
  sorted : sorted_by_time s.store.alarm_list
  clock_pos : 0 < s.clock
  fired_le_clock : ∀ f ∈ fired s.out, f.time ≤ s.clock + k
  fired_sorted : sorted_by_time (fired s.out)
  fired_le : ∀ f ∈ fired s.out, ∀ o, o ∈ held s ∨ o ∈ s.store.alarm_list → f.time ≤ o.time
  pos : ∀ o, o ∈ held s ∨ o ∈ s.store.alarm_list → 0 < o.time
  watch : ∀ a seen, s.pc = Pc.timedwait a seen →
    s.store.current_alarm ≠ 0 ∧ s.store.current_alarm ≤ a.time ∧ seen ≤ s.store.signals ∧
      (s.store.current_alarm = a.time → ∀ b ∈ s.store.alarm_list, a.time ≤ b.time) ∧
      (s.store.signals = seen → s.store.current_alarm = a.time)
  timed : ∀ a, s.pc = Pc.timed_out a →
    a.time ≤ s.clock + k ∧ ∀ b ∈ s.store.alarm_list, a.time ≤ b.time

/-- The event is an input line handled by `main`. -/
def is_input : Event → Bool
  | Event.input _ => true
  | _ => false

/-- No event of the list is an input line: `main` submits nothing. -/
def no_input (es : List Event) : Prop := ∀ e ∈ es, is_input e = false

instance (es : List Event) : Decidable (no_input es) := by
  unfold no_input; infer_instance

/-- The events of a run with both kinds of timeout, the early timeouts left
out. -/
def events : List Happening → List Event
  | [] => []
  | Happening.event e :: hs => e :: events hs
  | Happening.early_timeout :: hs => events hs

/-- The worker is idle and the alarms `F` have been printed: it waits on the
empty list with `current_alarm = 0`. -/
def idle_with (F : List alarm_t) (s : State) : Prop :=
  fired s.out = F ∧ (∃ n, s.pc = Pc.cond_wait n) ∧ s.store.alarm_list = [] ∧
    s.store.current_alarm = 0

/-- One turn of the worker: its wait returns 0 after a signal, or times out, and
it runs on; each of the three events takes effect only where the worker stands
for it. No spurious wakeup is needed. -/
def turn : List Event := [Event.wake, Event.timeout, Event.iter]

/-- The events of `n` turns of the worker, one after the other. -/
def turns : Nat → List Event
  | 0 => []
  | n + 1 => turns n ++ turn

/-- The clock reaches the time `t` (if it has not yet). -/
def reach (t : Int) (s : State) : Event := Event.tick (t - s.clock).toNat

/-- What holds in the states of a run without input in which the alarms of
`queue` are waiting to be printed in this order, `base` being the alarms
printed before.
* `split`: the alarms printed since, then the held alarm, then the list, make
  up `queue`;
* `watch`: in a timed wait no signal was sent since the wait began and
  `current_alarm` is the expiry time of the held alarm;
* `rest`: a worker waiting on the empty list has left `current_alarm` at 0;
* `woken`: a worker waiting while the list is not empty has been signalled. -/
structure Draining (base queue : List alarm_t) (s : State) : Prop where
  split : ∃ F, fired s.out = base ++ F ∧ F ++ held s ++ s.store.alarm_list = queue
  watch : ∀ h seen, s.pc = Pc.timedwait h seen →
    s.store.current_alarm = h.time ∧ s.store.signals = seen
  rest : ∀ n, s.pc = Pc.cond_wait n → s.store.alarm_list = [] → s.store.current_alarm = 0
  woken : ∀ n, s.pc = Pc.cond_wait n → s.store.alarm_list ≠ [] → s.store.signals ≠ n

/-- The time `m` is the earliest expiry time of the alarms of `l`: some alarm of
`l` is due at `m` and none is due before. -/
def earliest (m : Int) (l : List alarm_t) : Prop :=
  (∃ o ∈ l, o.time = m) ∧ ∀ o ∈ l, m ≤ o.time

/-- What holds in every state of a run in which no inserted alarm is due at
time 0.
* `sorted`: the list is in ascending order of expiry time;
* `nonzero`: no alarm held or listed is due at time 0;
* `idle`: while the worker waits in `pthread_cond_wait`, either the list is
  empty and `current_alarm` is 0, or `current_alarm` is the earliest expiry
  time of the list;
* `watch`: while the worker is in `pthread_cond_timedwait` with the alarm `a` in
  hand (also once the wait has timed out), `current_alarm` is the earliest
  expiry time of `a` and the list. -/
structure Tracks (s : State) : Prop where
  sorted : sorted_by_time s.store.alarm_list
  nonzero : ∀ o, o ∈ held s ∨ o ∈ s.store.alarm_list → o.time ≠ 0
  idle : ∀ n, s.pc = Pc.cond_wait n →
    (s.store.alarm_list = [] ∧ s.store.current_alarm = 0) ∨
      earliest s.store.current_alarm s.store.alarm_list
  watch : ∀ a, (∃ seen, s.pc = Pc.timedwait a seen) ∨ s.pc = Pc.timed_out a →
    earliest s.store.current_alarm (a :: s.store.alarm_list)

/-- The process at its start with the clock at `c`: empty list,
`current_alarm = 0`, the worker created and not yet running. -/
def start (c : Int) : State :=
  { store := { alarm_list := [], current_alarm := 0, signals := 0 }
    pc := Pc.unlocked
    clock := c
    out := [] }

end AlarmCond

/-!
# The lockers of `3.5.2.1-backoff.c`

One locker thread seen from inside: the mutexes it holds, the outcomes
`pthread_mutex_trylock` reports to it (any sequence of 0 and `EBUSY`, given
as `oracle`), and the log of what it does. `pthread_mutex_lock` returns 0 once
it has the mutex; the calls `sched_yield` and `sleep` of lines 74-77 and 142-145
change nothing here and are left out.
-/

namespace Backoff

/-- What `pthread_mutex_trylock` returns: 0 or `EBUSY`. -/
inductive Status
  | ok
  | ebusy
deriving DecidableEq, Repr

/-- What a locker does, in order.
* `lock k`: the call `pthread_mutex_lock(&mutex[k])` returned 0;
* `trylock k status`: the call `pthread_mutex_trylock(&mutex[k])` returned `status`;
* `backing_off j`: the message "backing off at j";
* `unlock k owned`: the call `pthread_mutex_unlock(&mutex[k])`, with `owned`
  telling whether the thread held `mutex[k]` at that moment;
* `got_all backoffs held`: the message "got all mutexes, `backoffs` backoffs",
  with the mutexes the thread held at that moment. -/
inductive Op
  | lock (k : Int)
  | trylock (k : Int) (status : Status)
  | backing_off (j : Int)
  | unlock (k : Int) (owned : Bool)
  | got_all (backoffs : Int) (held : List Int)
deriving DecidableEq, Repr

/-- A locker thread: the indices of the mutexes it holds, its counter
`backoffs`, the number of `pthread_mutex_trylock` outcomes it has used up, and
its log. -/
structure Locker where
  held : List Int
  backoffs : Int
  next : Nat
  log : List Op
deriving DecidableEq, Repr

/-- A thread that holds nothing and has done nothing. -/
def fresh : Locker := { held := [], backoffs := 0, next := 0, log := [] }

/-- The three mutexes `mutex[0]`, `mutex[1]`, `mutex[2]` are all held. -/
def holds_all (held : List Int) : Prop := 0 ∈ held ∧ 1 ∈ held ∧ 2 ∈ held

instance (held : List Int) : Decidable (holds_all held) := by
  unfold holds_all; infer_instance

/-- The call `pthread_mutex_lock(&mutex[k])`, returning 0. -/
def mutex_lock (k : Int) (l : Locker) : Locker :=
  { l with held := k :: l.held, log := l.log ++ [Op.lock k] }

/-- The call `pthread_mutex_trylock(&mutex[k])`: the next outcome of the oracle;
on 0 the mutex is held. -/
def mutex_trylock (oracle : Nat → Status) (k : Int) (l : Locker) : Status × Locker :=
  match oracle l.next with
  | Status.ok =>
    (Status.ok,
      { l with
        held := k :: l.held
        next := l.next + 1
        log := l.log ++ [Op.trylock k Status.ok] })
  | Status.ebusy =>
    (Status.ebusy, { l with next := l.next + 1, log := l.log ++ [Op.trylock k Status.ebusy] })

/-- The call `pthread_mutex_unlock(&mutex[k])`; the log keeps whether the thread
held the mutex. -/
def mutex_unlock (k : Int) (l : Locker) : Locker :=
  { l with
    held := l.held.filter (fun x => decide (x ≠ k))
    log := l.log ++ [Op.unlock k (decide (k ∈ l.held))] }

/-- The loop of lines 63-68, `for ( ; j > 0; j--)` unlocking `mutex[j-1]`, entered
with `j = n`: it unlocks `mutex[n-1]`, ..., `mutex[0]` and leaves `j = 0`. -/
def forward_unwind : Nat → Locker → Locker
  | 0, l => l
  | n + 1, l => forward_unwind n (mutex_unlock (n : Int) l)

/-- The body of the loop of lines 44-78 for the index `j`; the result is `j`
as the body leaves it (before the `j++` of the loop) and the thread. -/
def forward_body (backoff : Bool) (oracle : Nat → Status) (j : Int) (l : Locker) :
    Int × Locker :=
  if j = 0 then (j, mutex_lock 0 l)
  else
    match (if backoff then mutex_trylock oracle j l else (Status.ok, mutex_lock j l)) with
    | (Status.ebusy, l1) =>
      (0, forward_unwind j.toNat
        { l1 with backoffs := l1.backoffs + 1, log := l1.log ++ [Op.backing_off j] })
    | (Status.ok, l1) => (j, l1)

/-- The loop `for (int j = 0; j < 3; j++)` of lines 44-78 from the index `j`, run
for at most `fuel` turns; `none` when they do not suffice. -/
def forward_locks (backoff : Bool) (oracle : Nat → Status) : Nat → Int → Locker → Option Locker
  | 0, j, l => if j < 3 then none else some l
  | fuel + 1, j, l =>
    if j < 3 then
      forward_locks backoff oracle fuel ((forward_body backoff oracle j l).1 + 1)
        (forward_body backoff oracle j l).2
    else some l

/-- The message of lines 80-82 and the loop of lines 86-89, which unlocks
`mutex[2]`, `mutex[1]`, `mutex[0]`. -/
def forward_release (l : Locker) : Locker :=
  mutex_unlock 0 (mutex_unlock 1 (mutex_unlock 2
    { l with log := l.log ++ [Op.got_all l.backoffs l.held] }))

/-- One iteration of the loop of `lock_forward` (lines 42-89). -/
def forward_iteration (backoff : Bool) (oracle : Nat → Status) (fuel : Nat) (l : Locker) :
    Option Locker :=
  (forward_locks backoff oracle fuel 0 { l with backoffs := 0 }).map forward_release

/-- The function `lock_forward` (lines 37-93) for `count` iterations instead of
`ITERATIONS`. -/
def forward_iterations (backoff : Bool) (oracle : Nat → Status) (fuel : Nat) :
    Nat → Locker → Option Locker
  | 0, l => some l
  | count + 1, l =>
    match forward_iteration backoff oracle fuel l with
    | none => none
    | some l1 => forward_iterations backoff oracle fuel count l1

/-- The function `lock_forward` (lines 37-93): `ITERATIONS = 10` iterations by a
thread that holds nothing. -/
def lock_forward (backoff : Bool) (oracle : Nat → Status) (fuel : Nat) : Option Locker :=
  forward_iterations backoff oracle fuel 10 fresh

/-- The loop of lines 131-136, `for ( ; j < 2; j++)` unlocking `mutex[j+1]`, with
`count` turns to go from the index `j`: it leaves `j = 2`. -/
def backward_unwind : Nat → Int → Locker → Locker
  | 0, _, l => l
  | count + 1, j, l => backward_unwind count (j + 1) (mutex_unlock (j + 1) l)

/-- The body of the loop of lines 109-146 for the index `j`; the result is `j`
as the body leaves it (before the `j--` of the loop) and the thread. -/
def backward_body (backoff : Bool) (oracle : Nat → Status) (j : Int) (l : Locker) :
    Int × Locker :=
  if j = 2 then (j, mutex_lock 2 l)
  else
    match (if backoff then mutex_trylock oracle j l else (Status.ok, mutex_lock j l)) with
    | (Status.ebusy, l1) =>
      (2, backward_unwind (2 - j).toNat j
        { l1 with backoffs := l1.backoffs + 1, log := l1.log ++ [Op.backing_off j] })
    | (Status.ok, l1) => (j, l1)

/-- The loop `for (int j = 2; j >= 0; j--)` of lines 109-146 from the index `j`,
run for at most `fuel` turns; `none` when they do not suffice. -/
def backward_locks (backoff : Bool) (oracle : Nat → Status) :
    Nat → Int → Locker → Option Locker
  | 0, j, l => if 0 ≤ j then none else some l
  | fuel + 1, j, l =>
    if 0 ≤ j then
      backward_locks backoff oracle fuel ((backward_body backoff oracle j l).1 - 1)
        (backward_body backoff oracle j l).2
    else some l

/-- The message of lines 148-151 and the loop of lines 155-158, which unlocks
`mutex[0]`, `mutex[1]`, `mutex[2]`. -/
def backward_release (l : Locker) : Locker :=
  mutex_unlock 2 (mutex_unlock 1 (mutex_unlock 0
    { l with log := l.log ++ [Op.got_all l.backoffs l.held] }))

/-- One iteration of the loop of `lock_backward` (lines 107-158). -/
def backward_iteration (backoff : Bool) (oracle : Nat → Status) (fuel : Nat) (l : Locker) :
    Option Locker :=
  (backward_locks backoff oracle fuel 2 { l with backoffs := 0 }).map backward_release

/-- The function `lock_backward` (lines 102-162) for `count` iterations instead
of `ITERATIONS`. -/
def backward_iterations (backoff : Bool) (oracle : Nat → Status) (fuel : Nat) :
    Nat → Locker → Option Locker
  | 0, l => some l
  | count + 1, l =>
    match backward_iteration backoff oracle fuel l with
    | none => none
    | some l1 => backward_iterations backoff oracle fuel count l1

/-- The function `lock_backward` (lines 102-162): `ITERATIONS = 10` iterations
by a thread that holds nothing. -/
def lock_backward (backoff : Bool) (oracle : Nat → Status) (fuel : Nat) : Option Locker :=
  backward_iterations backoff oracle fuel 10 fresh

/-- The outcomes of `pthread_mutex_trylock` in which the first call reports
`EBUSY` and every later call succeeds. -/
def busy_once : Nat → Status
  | 0 => Status.ebusy
  | _ => Status.ok

end Backoff

namespace AlarmCond

/-! ## Lemmas on the ordered insertion -/

theorem scan_eq (alarm : alarm_t) (l : List alarm_t) : ∀ prev : List alarm_t,
    scan alarm prev l =
      (prev ++ l.takeWhile (fun x => decide (x.time < alarm.time)),
        l.dropWhile (fun x => decide (x.time < alarm.time))) := by
  induction l with
  | nil => intro prev; simp [scan]
  | cons n rest ih =>
    intro prev
    by_cases h : alarm.time ≤ n.time
    · have h2 : ¬ n.time < alarm.time := not_lt.mpr h
      simp [scan, h, h2, List.takeWhile, List.dropWhile]
    · have h2 : n.time < alarm.time := not_le.mp h
      simp [scan, h, h2, List.takeWhile, List.dropWhile, ih]

theorem splice_eq (alarm : alarm_t) (l : List alarm_t) :
    splice alarm l =
      l.takeWhile (fun x => decide (x.time < alarm.time)) ++
        alarm :: l.dropWhile (fun x => decide (x.time < alarm.time)) := by
  simp [splice, scan_eq]

theorem splice_nil (alarm : alarm_t) : splice alarm [] = [alarm] := by
  simp [splice_eq]

theorem splice_cons_le (alarm n : alarm_t) (rest : List alarm_t)
    (h : alarm.time ≤ n.time) : splice alarm (n :: rest) = alarm :: n :: rest := by
  have h2 : ¬ n.time < alarm.time := not_lt.mpr h
  simp [splice_eq, List.takeWhile, List.dropWhile, h2]

theorem splice_cons_gt (alarm n : alarm_t) (rest : List alarm_t)
    (h : n.time < alarm.time) : splice alarm (n :: rest) = n :: splice alarm rest := by
  simp [splice_eq, List.takeWhile, List.dropWhile, h]

theorem splice_perm (alarm : alarm_t) (l : List alarm_t) :
    (splice alarm l).Perm (alarm :: l) := by
  rw [splice_eq]
  have h := List.takeWhile_append_dropWhile (fun x => decide (x.time < alarm.time)) l
  calc (l.takeWhile (fun x => decide (x.time < alarm.time)) ++
          alarm :: l.dropWhile (fun x => decide (x.time < alarm.time))).Perm
        (alarm :: (l.takeWhile (fun x => decide (x.time < alarm.time)) ++
          l.dropWhile (fun x => decide (x.time < alarm.time)))) := List.perm_middle
    _ = alarm :: l := by rw [h]

theorem mem_splice (alarm x : alarm_t) (l : List alarm_t) :
    x ∈ splice alarm l ↔ x = alarm ∨ x ∈ l := by
  rw [(splice_perm alarm l).mem_iff]; simp

theorem splice_sorted (alarm : alarm_t) (l : List alarm_t) (h : sorted_by_time l) :
    sorted_by_time (splice alarm l) := by
  induction l with
  | nil => simp [splice_nil, sorted_by_time]
  | cons n rest ih =>
    have hn : ∀ y ∈ rest, n.time ≤ y.time := (List.pairwise_cons.mp h).1
    have hrest : sorted_by_time rest := (List.pairwise_cons.mp h).2
    by_cases hle : alarm.time ≤ n.time
    · rw [splice_cons_le alarm n rest hle]
      refine List.pairwise_cons.mpr ⟨?_, h⟩
      intro y hy
      rcases List.mem_cons.mp hy with rfl | hy
      · exact hle
      · exact le_trans hle (hn y hy)
    · have hgt : n.time < alarm.time := not_le.mp hle
      rw [splice_cons_gt alarm n rest hgt]
      refine List.pairwise_cons.mpr ⟨?_, ih hrest⟩
      intro y hy
      rcases (mem_splice alarm y rest).mp hy with rfl | hy
      · exact le_of_lt hgt
      · exact hn y hy

theorem splice_tie (b a : alarm_t) (pre post : List alarm_t) (h : b.time = a.time)
    (hpre : ∀ x ∈ pre, x.time < b.time) :
    splice b (pre ++ a :: post) = pre ++ b :: a :: post := by
  induction pre with
  | nil => simpa using splice_cons_le b a post (le_of_eq h)
  | cons n rest ih =>
    have hn : n.time < b.time := hpre n (List.mem_cons_self _ _)
    rw [List.cons_append, splice_cons_gt b n _ hn,
      ih (fun x hx => hpre x (List.mem_cons_of_mem _ hx)), List.cons_append]

theorem alarm_insert_list (alarm : alarm_t) (st : Store) :
    (alarm_insert alarm st).alarm_list = splice alarm st.alarm_list := by
  unfold alarm_insert; split <;> rfl

theorem insert_keeps_sorted (alarm : alarm_t) (st : Store)
    (h : sorted_by_time st.alarm_list) :
    sorted_by_time (alarm_insert alarm st).alarm_list := by
  rw [alarm_insert_list]
  exact splice_sorted alarm st.alarm_list h


/-! ## Lemmas on `sscanf` -/

theorem digit_run_none (t : List Char) (h : t.takeWhile isdigit = []) : digit_run t = none := by
  simp [digit_run, h]

theorem digit_run_some (t : List Char) (h : t.takeWhile isdigit ≠ []) :
    ∃ v, digit_run t = some (v, t.dropWhile isdigit) := by
  simp [digit_run, h]

theorem sign_not_digit (c : Char) (h : c.toNat = 45 ∨ c.toNat = 43) : isdigit c = false := by
  unfold isdigit
  rcases h with h | h <;> simp [h]

theorem takeWhile_cons_nil_iff (c : Char) (r : List Char) :
    (c :: r).takeWhile isdigit = [] ↔ isdigit c = false := by
  cases hc : isdigit c <;> simp [List.takeWhile, hc]

theorem scan_d_none (str : List Char) (h : starts_number str = false) : scan_d str = none := by
  unfold starts_number at h
  unfold scan_d
  split at h
  · rename_i heq; simp [heq]
  · rename_i c heq
    rw [heq]
    by_cases h45 : c.toNat = 45
    · simp [h45, digit_run_none]
    · by_cases h43 : c.toNat = 43
      · simp [h43, digit_run_none]
      · simp [h45, h43, digit_run_none _ ((takeWhile_cons_nil_iff c []).mpr h)]
  · rename_i c d r heq
    rw [heq]
    simp only [Bool.or_eq_false_iff, Bool.and_eq_false_iff] at h
    by_cases h45 : c.toNat = 45
    · have hd : isdigit d = false := by simpa [h45] using h.2
      simp [h45, digit_run_none _ ((takeWhile_cons_nil_iff d r).mpr hd)]
    · by_cases h43 : c.toNat = 43
      · have hd : isdigit d = false := by simpa [h43] using h.2
        simp [h43, digit_run_none _ ((takeWhile_cons_nil_iff d r).mpr hd)]
      · simp [h45, h43, digit_run_none _ ((takeWhile_cons_nil_iff c (d :: r)).mpr h.1)]

theorem scan_d_rest (str : List Char) (v : Int) (rest : List Char)
    (h : scan_d str = some (v, rest)) : rest = after_number str := by
  unfold scan_d at h
  unfold after_number
  split at h
  · cases h
  · rename_i c r heq
    by_cases h45 : c.toNat = 45
    · simp only [h45, if_true] at h
      by_cases hr : r.takeWhile isdigit = []
      · simp [digit_run_none r hr] at h
      · obtain ⟨w, hw⟩ := digit_run_some r hr
        simp [hw] at h
        simp [h45, h.2]
    · by_cases h43 : c.toNat = 43
      · simp only [h43, if_true] at h
        by_cases hr : r.takeWhile isdigit = []
        · simp [digit_run_none r hr] at h
        · obtain ⟨w, hw⟩ := digit_run_some r hr
          simp [hw] at h
          simp [h43, h.2]
      · simp only [h45, h43, if_false] at h
        by_cases hr : (c :: r).takeWhile isdigit = []
        · simp [digit_run_none _ hr] at h
        · obtain ⟨w, hw⟩ := digit_run_some _ hr
          simp [hw] at h
          simp [h45, h43, h.2]

theorem scan_d_some (str : List Char) (h : starts_number str = true) :
    ∃ v, scan_d str = some (v, after_number str) := by
  unfold starts_number at h
  unfold scan_d after_number
  split at h
  · cases h
  · rename_i c heq
    rw [heq]
    have hc : ¬ (c.toNat = 45 ∨ c.toNat = 43) := fun hs => by
      rw [sign_not_digit c hs] at h; cases h
    have h45 : ¬ c.toNat = 45 := fun hh => hc (Or.inl hh)
    have h43 : ¬ c.toNat = 43 := fun hh => hc (Or.inr hh)
    obtain ⟨w, hw⟩ := digit_run_some [c] (by simp [List.takeWhile, h])
    exact ⟨to_int (w : Int), by simp [h45, h43, hw]⟩
  · rename_i c d r heq
    rw [heq]
    by_cases h45 : c.toNat = 45
    · have hd : isdigit d = true := by
        simpa [h45, sign_not_digit c (Or.inl h45)] using h
      obtain ⟨w, hw⟩ := digit_run_some (d :: r) (by simp [List.takeWhile, hd])
      exact ⟨to_int (-(w : Int)), by simp [h45, hw]⟩
    · by_cases h43 : c.toNat = 43
      · have hd : isdigit d = true := by
          simpa [h43, sign_not_digit c (Or.inr h43)] using h
        obtain ⟨w, hw⟩ := digit_run_some (d :: r) (by simp [List.takeWhile, hd])
        exact ⟨to_int (w : Int), by simp [h43, hw]⟩
      · have hcd : isdigit c = true := by simpa [h45, h43] using h
        obtain ⟨w, hw⟩ := digit_run_some (c :: d :: r) (by simp [List.takeWhile, hcd])
        exact ⟨to_int (w : Int), by simp [h45, h43, hw]⟩

theorem sscanf_alarm_none (str : List Char)
    (h : starts_number str = false ∨ message_text str = []) : sscanf_alarm str = none := by
  unfold sscanf_alarm
  cases hd : scan_d str with
  | none => rfl
  | some p =>
    obtain ⟨v, rest⟩ := p
    rcases h with h | h
    · rw [scan_d_none str h] at hd; cases hd
    · have hrest := scan_d_rest str v rest hd
      unfold message_text at h
      subst hrest
      have h3 : List.take 64 (List.takeWhile (fun c => decide (c.toNat ≠ 10))
          (List.dropWhile isspace (after_number str))) = [] := by rw [h]; rfl
      show (if List.take 64 (List.takeWhile (fun c => decide (c.toNat ≠ 10))
          (List.dropWhile isspace (after_number str))) = [] then none else _) = none
      rw [if_pos h3]

theorem sscanf_alarm_some (str : List Char)
    (h1 : starts_number str = true) (h2 : message_text str ≠ []) :
    ∃ v, sscanf_alarm str = some (v, (message_text str).take 64) := by
  obtain ⟨v, hv⟩ := scan_d_some str h1
  refine ⟨v, ?_⟩
  unfold sscanf_alarm
  rw [hv]
  unfold message_text at h2 ⊢
  have h3 : List.take 64 (List.takeWhile (fun c => decide (c.toNat ≠ 10))
      (List.dropWhile isspace (after_number str))) ≠ [] := by
    intro hcon
    rw [List.take_eq_nil_iff] at hcon
    rcases hcon with hcon | hcon
    · cases hcon
    · exact h2 hcon
  show (if List.take 64 (List.takeWhile (fun c => decide (c.toNat ≠ 10))
      (List.dropWhile isspace (after_number str))) = [] then none else _) = some _
  rw [if_neg h3]

/-! ## Lemmas on the steps -/

theorem main_loop_pc (line : List Char) (s : State) : (main_loop line s).pc = s.pc := by
  unfold main_loop
  split
  · rfl
  · split <;> rfl

theorem main_loop_clock (line : List Char) (s : State) :
    (main_loop line s).clock = s.clock := by
  unfold main_loop
  split
  · rfl
  · split <;> rfl

theorem main_loop_out (line : List Char) (s : State) : (main_loop line s).out = s.out := by
  unfold main_loop
  split
  · rfl
  · split <;> rfl

theorem run_nil (s : State) : run s [] = s := rfl

theorem run_cons (s : State) (e : Event) (es : List Event) :
    run s (e :: es) = run (step s e) es := rfl

theorem run_append (s : State) (es fs : List Event) :
    run s (es ++ fs) = run (run s es) fs := by
  simp [run, List.foldl_append]

theorem run_snoc (s : State) (es : List Event) (e : Event) :
    run s (es ++ [e]) = step (run s es) e := by
  simp [run, List.foldl_append]

theorem fired_append (xs ys : List Out) : fired (xs ++ ys) = fired xs ++ fired ys := by
  induction xs with
  | nil => rfl
  | cons x rest ih => cases x <;> simp [fired, ih]

theorem timed_ok_start (c : Int) : timed_ok (start c) := by
  intro a h; simp [start] at h

theorem pop_front_move (s s0 : State) (hne : s.store.alarm_list ≠ [])
    (hpc : s0.pc = Pc.unlocked ∨ s0.pc = Pc.loop_top ∨ ∃ n, s0.pc = Pc.cond_wait n)
    (hl : s.store.alarm_list = s0.store.alarm_list)
    (hs : s.store.signals = s0.store.signals) (hc : s.clock = s0.clock)
    (ho : s.out = s0.out) : Move s0 [] (pop_front s) := by
  unfold pop_front
  split
  · rename_i hnil; exact absurd hnil hne
  · rename_i alarm rest hcons
    split
    · rename_i hdue
      show Move s0 [] (State.mk (Store.mk rest s.store.current_alarm s.store.signals)
        Pc.loop_top s.clock (s.out ++ [Out.fired alarm]))
      rw [hs, hc, ho]
      exact Move.fire alarm rest _ hpc (hl ▸ hcons) (hc ▸ hdue)
    · rename_i hdue
      show Move s0 [] (State.mk (Store.mk rest alarm.time s.store.signals)
        (Pc.timedwait alarm s.store.signals) s.clock s.out)
      rw [hs, hc, ho]
      exact Move.watch alarm rest hpc (hl ▸ hcons) (hc ▸ hdue)

theorem loop_iteration_move (s : State) (hpc : s.pc = Pc.unlocked ∨ s.pc = Pc.loop_top) :
    Move s [] (loop_iteration s) := by
  unfold loop_iteration
  split
  · rename_i hnil
    exact Move.idle hpc hnil
  · rename_i hne
    refine pop_front_move _ s hne ?_ rfl rfl rfl rfl
    rcases hpc with h | h
    · exact Or.inl h
    · exact Or.inr (Or.inl h)

theorem wait_returns_move (s : State) : Move s [] (wait_returns s) := by
  cases hpc : s.pc with
  | unlocked => simp only [wait_returns, hpc]; exact Move.stay
  | loop_top => simp only [wait_returns, hpc]; exact Move.stay
  | timed_out _ => simp only [wait_returns, hpc]; exact Move.stay
  | cond_wait n =>
    simp only [wait_returns, hpc]
    split
    · rename_i hnil; exact Move.reidle n hpc hnil
    · rename_i hne
      exact pop_front_move s s hne (Or.inr (Or.inr ⟨n, hpc⟩)) rfl rfl rfl rfl
  | timedwait alarm seen =>
    simp only [wait_returns, hpc]
    split
    · rename_i hcur; exact Move.rewait alarm seen hpc hcur
    · rename_i hcur; exact Move.preempt alarm seen hpc hcur

theorem step_move (s : State) (e : Event) : Move s (accepted s e) (step s e) := by
  cases e with
  | tick d => exact Move.tick d
  | input line =>
    cases hpc : s.pc with
    | loop_top => simp only [step, accepted, hpc]; exact Move.stay
    | unlocked | cond_wait _ | timedwait _ _ | timed_out _ =>
      by_cases hlen : (cstr line).length ≤ 1
      · simp only [step, accepted, hpc, main_loop, hlen, if_true]; exact Move.stay
      · cases hparse : sscanf_alarm (cstr line) with
        | none => simp only [step, accepted, hpc, main_loop, hlen, hparse, if_false]; exact Move.stay
        | some p =>
          simp only [step, accepted, hpc, main_loop, hlen, hparse, if_false]
          have h := Move.insert (s := s) (alarm_t.mk p.1 (s.clock + p.1) p.2)
            (by rw [hpc]; simp) rfl
          rw [hpc] at h
          exact h
  | iter =>
    cases hpc : s.pc with
    | unlocked =>
      simp only [step, accepted, hpc]; exact loop_iteration_move s (Or.inl hpc)
    | loop_top =>
      simp only [step, accepted, hpc]; exact loop_iteration_move s (Or.inr hpc)
    | cond_wait _ => simp only [step, accepted, hpc]; exact Move.stay
    | timedwait _ _ => simp only [step, accepted, hpc]; exact Move.stay
    | timed_out alarm => simp only [step, accepted, hpc]; exact Move.expire alarm hpc
  | wake =>
    simp only [step, accepted]
    split
    · exact wait_returns_move s
    · exact Move.stay
  | spurious => exact wait_returns_move s
  | timeout =>
    cases hpc : s.pc with
    | unlocked => simp only [step, accepted, wait_times_out, hpc]; exact Move.stay
    | loop_top => simp only [step, accepted, wait_times_out, hpc]; exact Move.stay
    | cond_wait _ => simp only [step, accepted, wait_times_out, hpc]; exact Move.stay
    | timed_out _ => simp only [step, accepted, wait_times_out, hpc]; exact Move.stay
    | timedwait alarm seen =>
      simp only [step, accepted, wait_times_out, hpc]
      split
      · rename_i hcond; exact Move.times_out alarm seen hpc hcond.1 hcond.2
      · exact Move.stay

theorem move_timed_ok (s t : State) (acc : List alarm_t) (hm : Move s acc t)
    (h : timed_ok s) : timed_ok t := by
  cases hm with
  | stay => exact h
  | reidle seen hpc hl => intro a ha; cases ha
  | tick d =>
    intro a ha
    have := h a ha
    show a.time ≤ s.clock + d
    omega
  | insert alarm hpc htime => exact fun a ha => h a ha
  | idle hpc hl => intro a ha; cases ha
  | fire alarm rest cur hpc hl hdue => intro a ha; cases ha
  | watch alarm rest hpc hl hnot => intro a ha; cases ha
  | rewait alarm seen hpc hcur => intro a ha; cases ha
  | preempt alarm seen hpc hcur => intro a ha; cases ha
  | times_out alarm seen hpc hdue hsig =>
    intro a ha
    cases ha
    exact hdue
  | expire alarm hpc => intro a ha; cases ha

theorem move_out (s t : State) (acc : List alarm_t) (hm : Move s acc t)
    (h : timed_ok s) :
    ∃ new, t.out = s.out ++ new ∧ (∀ a ∈ fired new, a.time ≤ s.clock) ∧
      (fired new ≠ [] → t.clock = s.clock) := by
  cases hm with
  | stay => exact ⟨[], by simp, by simp [fired], fun _ => rfl⟩
  | reidle seen hpc hl => exact ⟨[], by simp, by simp [fired], fun _ => rfl⟩
  | tick d => exact ⟨[], by simp, by simp [fired], by simp [fired]⟩
  | insert alarm hpc htime => exact ⟨[], by simp, by simp [fired], fun _ => rfl⟩
  | idle hpc hl => exact ⟨[], by simp, by simp [fired], fun _ => rfl⟩
  | fire alarm rest cur hpc hl hdue =>
    exact ⟨[Out.fired alarm], rfl, by simpa [fired] using hdue, fun _ => rfl⟩
  | watch alarm rest hpc hl hnot => exact ⟨[], by simp, by simp [fired], fun _ => rfl⟩
  | rewait alarm seen hpc hcur => exact ⟨[], by simp, by simp [fired], fun _ => rfl⟩
  | preempt alarm seen hpc hcur => exact ⟨[], by simp, by simp [fired], fun _ => rfl⟩
  | times_out alarm seen hpc hdue hsig =>
    exact ⟨[], by simp, by simp [fired], fun _ => rfl⟩
  | expire alarm hpc =>
    exact ⟨[Out.expired, Out.fired alarm], rfl, by simpa [fired] using h alarm hpc,
      fun _ => rfl⟩

theorem timed_ok_run (s : State) (es : List Event) (h : timed_ok s) :
    timed_ok (run s es) := by
  induction es generalizing s with
  | nil => exact h
  | cons e rest ih => exact ih (step s e) (move_timed_ok s _ _ (step_move s e) h)

theorem count_splice (x alarm : alarm_t) (l : List alarm_t) :
    (splice alarm l).count x = (alarm :: l).count x :=
  (splice_perm alarm l).count_eq x

theorem held_of_ready (s : State)
    (hpc : s.pc = Pc.unlocked ∨ s.pc = Pc.loop_top ∨ ∃ n, s.pc = Pc.cond_wait n) :
    held s = [] := by
  rcases hpc with h | h | ⟨n, h⟩ <;> simp [held, h]

theorem held_top (st : Store) (c : Int) (o : List Out) :
    held (State.mk st Pc.loop_top c o) = [] := rfl

theorem held_cond_wait (st : Store) (n : Nat) (c : Int) (o : List Out) :
    held (State.mk st (Pc.cond_wait n) c o) = [] := rfl

theorem held_timedwait (st : Store) (a : alarm_t) (n : Nat) (c : Int) (o : List Out) :
    held (State.mk st (Pc.timedwait a n) c o) = [a] := rfl

theorem held_timed_out (st : Store) (a : alarm_t) (c : Int) (o : List Out) :
    held (State.mk st (Pc.timed_out a) c o) = [a] := rfl

theorem held_of_timedwait (s : State) (a : alarm_t) (n : Nat)
    (hpc : s.pc = Pc.timedwait a n) : held s = [a] := by
  simp [held, hpc]

theorem held_of_timed_out (s : State) (a : alarm_t)
    (hpc : s.pc = Pc.timed_out a) : held s = [a] := by
  simp [held, hpc]

theorem move_perm (s t : State) (acc : List alarm_t) (hm : Move s acc t) :
    (fired t.out ++ held t ++ t.store.alarm_list).Perm
      (fired s.out ++ held s ++ s.store.alarm_list ++ acc) := by
  rw [List.perm_iff_count]
  intro x
  cases hm with
  | stay => simp
  | reidle seen hpc hl =>
    rw [held_of_ready s (Or.inr (Or.inr ⟨seen, hpc⟩)), held_cond_wait]
    simp
  | tick d =>
    have hh : held (State.mk s.store s.pc (s.clock + d) s.out) = held s := rfl
    rw [hh]; simp
  | insert alarm hpc htime =>
    have hh : held (State.mk (alarm_insert alarm s.store) s.pc s.clock s.out) = held s := rfl
    rw [hh]
    simp only [alarm_insert_list, List.count_append, count_splice, List.count_cons,
      List.count_nil]
    omega
  | idle hpc hl =>
    have h1 := held_of_ready s (by tauto)
    rw [h1, held_cond_wait]
    simp
  | fire alarm rest cur hpc hl hdue =>
    rw [held_of_ready s hpc, held_top]
    simp only [hl, fired_append, fired, List.count_append, List.count_cons,
      List.count_nil]
    omega
  | watch alarm rest hpc hl hnot =>
    rw [held_of_ready s hpc, held_timedwait]
    simp only [hl, List.count_append, List.count_cons, List.count_nil]
    omega
  | rewait alarm seen hpc hcur =>
    rw [held_of_timedwait s alarm seen hpc, held_timedwait]
    simp
  | preempt alarm seen hpc hcur =>
    rw [held_of_timedwait s alarm seen hpc, held_top]
    simp only [alarm_insert_list, List.count_append, count_splice, List.count_cons,
      List.count_nil]
    omega
  | times_out alarm seen hpc hdue hsig =>
    rw [held_of_timedwait s alarm seen hpc, held_timed_out]
    simp
  | expire alarm hpc =>
    rw [held_of_timed_out s alarm hpc, held_top]
    simp only [fired_append, fired, List.count_append, List.count_cons,
      List.count_nil]
    omega

theorem run_perm (s : State) (es : List Event) :
    (fired (run s es).out ++ held (run s es) ++ (run s es).store.alarm_list).Perm
      (fired s.out ++ held s ++ s.store.alarm_list ++ submitted s es) := by
  induction es generalizing s with
  | nil => simp [run, submitted]
  | cons e rest ih =>
    rw [run_cons]
    refine (ih (step s e)).trans ?_
    simp only [submitted]
    rw [← List.append_assoc]
    exact List.Perm.append_right _ (move_perm s _ _ (step_move s e))

theorem sorted_snoc (l : List alarm_t) (a : alarm_t) (h : sorted_by_time l)
    (hle : ∀ f ∈ l, f.time ≤ a.time) : sorted_by_time (l ++ [a]) := by
  unfold sorted_by_time at *
  rw [List.pairwise_append]
  refine ⟨h, List.pairwise_singleton _ _, ?_⟩
  intro f hf o ho
  rw [List.mem_singleton] at ho
  rw [ho]
  exact hle f hf

theorem inv_start (k c : Int) (hk : 0 ≤ k) (hc : 0 < c) : Inv k (start c) where
  slack := hk
  sorted := by simp [start, sorted_by_time]
  clock_pos := hc
  fired_le_clock := by simp [start, fired]
  fired_sorted := by simp [start, fired, sorted_by_time]
  fired_le := by simp [start, fired]
  pos := by simp [start, held]
  watch := by intro a seen h; cases h
  timed := by intro a h; cases h

theorem inv_tick (k : Int) (s : State) (d : Nat) (h : Inv k s) :
    Inv k (State.mk s.store s.pc (s.clock + d) s.out) where
  slack := h.slack
  sorted := h.sorted
  clock_pos := by have := h.clock_pos; show 0 < s.clock + d; omega
  fired_le_clock := by
    intro f hf
    have := h.fired_le_clock f hf
    show f.time ≤ s.clock + d + k
    omega
  fired_sorted := h.fired_sorted
  fired_le := h.fired_le
  pos := h.pos
  watch := h.watch
  timed := by
    intro a ha
    have := h.timed a ha
    refine ⟨?_, this.2⟩
    show a.time ≤ s.clock + d + k
    omega

theorem inv_insert (k : Int) (s : State) (alarm : alarm_t) (h : Inv k s)
    (htime : alarm.time = s.clock + alarm.seconds) (hsec : k ≤ alarm.seconds) :
    Inv k (State.mk (alarm_insert alarm s.store) s.pc s.clock s.out) where
  slack := h.slack
  sorted := insert_keeps_sorted alarm s.store h.sorted
  clock_pos := h.clock_pos
  fired_le_clock := h.fired_le_clock
  fired_sorted := h.fired_sorted
  fired_le := by
    intro f hf o ho
    rcases ho with ho | ho
    · exact h.fired_le f hf o (Or.inl ho)
    · have ho2 : o ∈ splice alarm s.store.alarm_list := by
        rw [← alarm_insert_list]; exact ho
      rcases (mem_splice alarm o _).mp ho2 with rfl | ho3
      · have := h.fired_le_clock f hf
        omega
      · exact h.fired_le f hf o (Or.inr ho3)
  pos := by
    intro o ho
    rcases ho with ho | ho
    · exact h.pos o (Or.inl ho)
    · have ho2 : o ∈ splice alarm s.store.alarm_list := by
        rw [← alarm_insert_list]; exact ho
      rcases (mem_splice alarm o _).mp ho2 with rfl | ho3
      · have := h.clock_pos
        have := h.slack
        omega
      · exact h.pos o (Or.inr ho3)
  watch := by
    intro a seen ha
    obtain ⟨h0, hle, hseen, hmin, hsig⟩ := h.watch a seen ha
    have hmem : ∀ b, b ∈ (alarm_insert alarm s.store).alarm_list →
        b = alarm ∨ b ∈ s.store.alarm_list := by
      intro b hb
      rw [alarm_insert_list] at hb
      exact (mem_splice alarm b _).mp hb
    have hpos : 0 < alarm.time := by have := h.clock_pos; have := h.slack; omega
    by_cases hc : s.store.current_alarm = 0 ∨ alarm.time < s.store.current_alarm
    · have h1 : (alarm_insert alarm s.store).current_alarm = alarm.time := by
        simp [alarm_insert, hc]
      have h2 : (alarm_insert alarm s.store).signals = s.store.signals + 1 := by
        simp [alarm_insert, hc]
      have hlt : alarm.time < s.store.current_alarm := by
        rcases hc with hc | hc
        · exact absurd hc h0
        · exact hc
      show (alarm_insert alarm s.store).current_alarm ≠ 0 ∧
        (alarm_insert alarm s.store).current_alarm ≤ a.time ∧
        seen ≤ (alarm_insert alarm s.store).signals ∧
        ((alarm_insert alarm s.store).current_alarm = a.time →
          ∀ b ∈ (alarm_insert alarm s.store).alarm_list, a.time ≤ b.time) ∧
        ((alarm_insert alarm s.store).signals = seen →
          (alarm_insert alarm s.store).current_alarm = a.time)
      rw [h1, h2]
      refine ⟨by omega, by omega, by omega, fun he => by omega, fun he => by omega⟩
    · have h1 : (alarm_insert alarm s.store).current_alarm = s.store.current_alarm := by
        simp [alarm_insert, hc]
      have h2 : (alarm_insert alarm s.store).signals = s.store.signals := by
        simp [alarm_insert, hc]
      have hge : s.store.current_alarm ≤ alarm.time := by
        by_contra hcon
        exact hc (Or.inr (not_le.mp hcon))
      show (alarm_insert alarm s.store).current_alarm ≠ 0 ∧
        (alarm_insert alarm s.store).current_alarm ≤ a.time ∧
        seen ≤ (alarm_insert alarm s.store).signals ∧
        ((alarm_insert alarm s.store).current_alarm = a.time →
          ∀ b ∈ (alarm_insert alarm s.store).alarm_list, a.time ≤ b.time) ∧
        ((alarm_insert alarm s.store).signals = seen →
          (alarm_insert alarm s.store).current_alarm = a.time)
      rw [h1, h2]
      refine ⟨h0, hle, hseen, ?_, hsig⟩
      intro he b hb
      rcases hmem b hb with rfl | hb2
      · omega
      · exact hmin he b hb2
  timed := by
    intro a ha
    obtain ⟨hdue, hmin⟩ := h.timed a ha
    refine ⟨hdue, ?_⟩
    intro b hb
    have hb2 : b ∈ splice alarm s.store.alarm_list := by
      rw [← alarm_insert_list]; exact hb
    rcases (mem_splice alarm b _).mp hb2 with rfl | hb3
    · have : a.time ≤ s.clock + k := hdue
      omega
    · exact hmin b hb3

theorem inv_reidle (k : Int) (s : State) (n : Nat) (h : Inv k s)
    (hpc : s.pc = Pc.cond_wait n) :
    Inv k (State.mk s.store (Pc.cond_wait s.store.signals) s.clock s.out) where
  slack := h.slack
  sorted := h.sorted
  clock_pos := h.clock_pos
  fired_le_clock := h.fired_le_clock
  fired_sorted := h.fired_sorted
  fired_le := by
    intro f hf o ho
    rw [held_cond_wait, ← held_of_ready s (Or.inr (Or.inr ⟨n, hpc⟩))] at ho
    exact h.fired_le f hf o ho
  pos := by
    intro o ho
    rw [held_cond_wait, ← held_of_ready s (Or.inr (Or.inr ⟨n, hpc⟩))] at ho
    exact h.pos o ho
  watch := by intro a seen ha; cases ha
  timed := by intro a ha; cases ha

theorem inv_idle (k : Int) (s : State) (h : Inv k s) :
    Inv k (State.mk (Store.mk s.store.alarm_list 0 s.store.signals)
      (Pc.cond_wait s.store.signals) s.clock s.out) where
  slack := h.slack
  sorted := h.sorted
  clock_pos := h.clock_pos
  fired_le_clock := h.fired_le_clock
  fired_sorted := h.fired_sorted
  fired_le := by
    intro f hf o ho
    rcases ho with ho | ho
    · rw [held_cond_wait] at ho; cases ho
    · exact h.fired_le f hf o (Or.inr ho)
  pos := by
    intro o ho
    rcases ho with ho | ho
    · rw [held_cond_wait] at ho; cases ho
    · exact h.pos o (Or.inr ho)
  watch := by intro a seen ha; cases ha
  timed := by intro a ha; cases ha

theorem inv_fire (k : Int) (s : State) (alarm : alarm_t) (rest : List alarm_t) (cur : Int)
    (h : Inv k s) (hl : s.store.alarm_list = alarm :: rest) (hdue : alarm.time ≤ s.clock) :
    Inv k (State.mk (Store.mk rest cur s.store.signals) Pc.loop_top s.clock
      (s.out ++ [Out.fired alarm])) := by
  have hs := h.sorted
  rw [hl] at hs
  have hhead : ∀ b ∈ rest, alarm.time ≤ b.time := (List.pairwise_cons.mp hs).1
  have hmem : alarm ∈ s.store.alarm_list := by rw [hl]; exact List.mem_cons_self _ _
  have hrest : ∀ b ∈ rest, b ∈ s.store.alarm_list := by
    intro b hb; rw [hl]; exact List.mem_cons_of_mem _ hb
  have hf : fired (s.out ++ [Out.fired alarm]) = fired s.out ++ [alarm] := by
    simp [fired_append, fired]
  refine
    { slack := h.slack
      sorted := (List.pairwise_cons.mp hs).2
      clock_pos := h.clock_pos
      fired_le_clock := ?_
      fired_sorted := ?_
      fired_le := ?_
      pos := ?_
      watch := by intro a seen ha; cases ha
      timed := by intro a ha; cases ha }
  · intro f hfm
    rw [hf, List.mem_append, List.mem_singleton] at hfm
    rcases hfm with hfm | rfl
    · exact h.fired_le_clock f hfm
    · have := h.slack
      show f.time ≤ s.clock + k
      omega
  · rw [hf]
    exact sorted_snoc _ _ h.fired_sorted (fun f hfm => h.fired_le f hfm alarm (Or.inr hmem))
  · intro f hfm o ho
    rw [hf, List.mem_append, List.mem_singleton] at hfm
    rcases ho with ho | ho
    · rw [held_top] at ho; cases ho
    · rcases hfm with hfm | rfl
      · exact h.fired_le f hfm o (Or.inr (hrest o ho))
      · exact hhead o ho
  · intro o ho
    rcases ho with ho | ho
    · rw [held_top] at ho; cases ho
    · exact h.pos o (Or.inr (hrest o ho))

theorem inv_watch (k : Int) (s : State) (alarm : alarm_t) (rest : List alarm_t)
    (h : Inv k s) (hl : s.store.alarm_list = alarm :: rest) :
    Inv k (State.mk (Store.mk rest alarm.time s.store.signals)
      (Pc.timedwait alarm s.store.signals) s.clock s.out) := by
  have hs := h.sorted
  rw [hl] at hs
  have hhead : ∀ b ∈ rest, alarm.time ≤ b.time := (List.pairwise_cons.mp hs).1
  have hmem : alarm ∈ s.store.alarm_list := by rw [hl]; exact List.mem_cons_self _ _
  have hrest : ∀ b ∈ rest, b ∈ s.store.alarm_list := by
    intro b hb; rw [hl]; exact List.mem_cons_of_mem _ hb
  have hall : ∀ o, o ∈ held (State.mk (Store.mk rest alarm.time s.store.signals)
      (Pc.timedwait alarm s.store.signals) s.clock s.out) ∨ o ∈ rest →
      o ∈ s.store.alarm_list := by
    intro o ho
    rcases ho with ho | ho
    · rw [held_timedwait, List.mem_singleton] at ho
      rw [ho]; exact hmem
    · exact hrest o ho
  refine
    { slack := h.slack
      sorted := (List.pairwise_cons.mp hs).2
      clock_pos := h.clock_pos
      fired_le_clock := h.fired_le_clock
      fired_sorted := h.fired_sorted
      fired_le := fun f hfm o ho => h.fired_le f hfm o (Or.inr (hall o ho))
      pos := fun o ho => h.pos o (Or.inr (hall o ho))
      watch := ?_
      timed := by intro a ha; cases ha }
  intro a seen ha
  cases ha
  have hp := h.pos alarm (Or.inr hmem)
  exact ⟨fun h0 => by
      have h1 : alarm.time = 0 := h0
      omega, le_refl _, le_refl _, fun _ => hhead, fun _ => rfl⟩

theorem inv_rewait (k : Int) (s : State) (alarm : alarm_t) (seen : Nat) (h : Inv k s)
    (hpc : s.pc = Pc.timedwait alarm seen) (hcur : s.store.current_alarm = alarm.time) :
    Inv k (State.mk s.store (Pc.timedwait alarm s.store.signals) s.clock s.out) := by
  have hheld := held_of_timedwait s alarm seen hpc
  obtain ⟨h0, hle, hseen, hmin, hsig⟩ := h.watch alarm seen hpc
  refine
    { slack := h.slack
      sorted := h.sorted
      clock_pos := h.clock_pos
      fired_le_clock := h.fired_le_clock
      fired_sorted := h.fired_sorted
      fired_le := ?_
      pos := ?_
      watch := ?_
      timed := by intro a ha; cases ha }
  · intro f hfm o ho
    rw [held_timedwait, ← hheld] at ho
    exact h.fired_le f hfm o ho
  · intro o ho
    rw [held_timedwait, ← hheld] at ho
    exact h.pos o ho
  · intro a seen2 ha
    cases ha
    exact ⟨h0, hle, le_refl _, hmin, fun _ => hcur⟩

theorem inv_preempt (k : Int) (s : State) (alarm : alarm_t) (seen : Nat) (h : Inv k s)
    (hpc : s.pc = Pc.timedwait alarm seen) :
    Inv k (State.mk (alarm_insert alarm s.store) Pc.loop_top s.clock s.out) := by
  have hheld := held_of_timedwait s alarm seen hpc
  have hall : ∀ o, o ∈ held (State.mk (alarm_insert alarm s.store) Pc.loop_top s.clock s.out) ∨
      o ∈ (alarm_insert alarm s.store).alarm_list → o ∈ held s ∨ o ∈ s.store.alarm_list := by
    intro o ho
    rcases ho with ho | ho
    · rw [held_top] at ho; cases ho
    · rw [alarm_insert_list] at ho
      rcases (mem_splice alarm o _).mp ho with rfl | ho2
      · left; rw [hheld]; exact List.mem_singleton_self _
      · right; exact ho2
  exact
    { slack := h.slack
      sorted := insert_keeps_sorted alarm s.store h.sorted
      clock_pos := h.clock_pos
      fired_le_clock := h.fired_le_clock
      fired_sorted := h.fired_sorted
      fired_le := fun f hfm o ho => h.fired_le f hfm o (hall o ho)
      pos := fun o ho => h.pos o (hall o ho)
      watch := by intro a seen ha; cases ha
      timed := by intro a ha; cases ha }

theorem inv_times_out (k : Int) (s : State) (alarm : alarm_t) (seen : Nat) (h : Inv k s)
    (hpc : s.pc = Pc.timedwait alarm seen) (hdue : alarm.time ≤ s.clock + k)
    (hsig : s.store.signals = seen) :
    Inv k (State.mk s.store (Pc.timed_out alarm) s.clock s.out) := by
  have hheld := held_of_timedwait s alarm seen hpc
  obtain ⟨h0, hle, hseen, hmin, hcur⟩ := h.watch alarm seen hpc
  refine
    { slack := h.slack
      sorted := h.sorted
      clock_pos := h.clock_pos
      fired_le_clock := h.fired_le_clock
      fired_sorted := h.fired_sorted
      fired_le := ?_
      pos := ?_
      watch := by intro a seen ha; cases ha
      timed := ?_ }
  · intro f hfm o ho
    rw [held_timed_out, ← hheld] at ho
    exact h.fired_le f hfm o ho
  · intro o ho
    rw [held_timed_out, ← hheld] at ho
    exact h.pos o ho
  · intro a ha
    cases ha
    exact ⟨hdue, hmin (hcur hsig)⟩

theorem inv_expire (k : Int) (s : State) (alarm : alarm_t) (h : Inv k s)
    (hpc : s.pc = Pc.timed_out alarm) :
    Inv k (State.mk s.store Pc.loop_top s.clock (s.out ++ [Out.expired, Out.fired alarm])) := by
  have hheld := held_of_timed_out s alarm hpc
  obtain ⟨hdue, hmin⟩ := h.timed alarm hpc
  have hmem : alarm ∈ held s := by rw [hheld]; exact List.mem_singleton_self _
  have hf : fired (s.out ++ [Out.expired, Out.fired alarm]) = fired s.out ++ [alarm] := by
    simp [fired_append, fired]
  refine
    { slack := h.slack
      sorted := h.sorted
      clock_pos := h.clock_pos
      fired_le_clock := ?_
      fired_sorted := ?_
      fired_le := ?_
      pos := ?_
      watch := by intro a seen ha; cases ha
      timed := by intro a ha; cases ha }
  · intro f hfm
    rw [hf, List.mem_append, List.mem_singleton] at hfm
    rcases hfm with hfm | rfl
    · exact h.fired_le_clock f hfm
    · exact hdue
  · rw [hf]
    exact sorted_snoc _ _ h.fired_sorted (fun f hfm => h.fired_le f hfm alarm (Or.inl hmem))
  · intro f hfm o ho
    rw [hf, List.mem_append, List.mem_singleton] at hfm
    rcases ho with ho | ho
    · rw [held_top] at ho; cases ho
    · rcases hfm with hfm | rfl
      · exact h.fired_le f hfm o (Or.inr ho)
      · exact hmin o ho
  · intro o ho
    rcases ho with ho | ho
    · rw [held_top] at ho; cases ho
    · exact h.pos o (Or.inr ho)

theorem move_inv (k : Int) (s t : State) (acc : List alarm_t) (hm : Move s acc t)
    (h : Inv k s) (hsec : ∀ a ∈ acc, k ≤ a.seconds) : Inv k t := by
  cases hm with
  | stay => exact h
  | reidle seen hpc hl => exact inv_reidle k s seen h hpc
  | tick d => exact inv_tick k s d h
  | insert alarm hpc htime =>
    exact inv_insert k s alarm h htime (hsec alarm (List.mem_singleton_self _))
  | idle hpc hl => exact inv_idle k s h
  | fire alarm rest cur hpc hl hdue => exact inv_fire k s alarm rest cur h hl hdue
  | watch alarm rest hpc hl hnot => exact inv_watch k s alarm rest h hl
  | rewait alarm seen hpc hcur => exact inv_rewait k s alarm seen h hpc hcur
  | preempt alarm seen hpc hcur => exact inv_preempt k s alarm seen h hpc
  | times_out alarm seen hpc hdue hsig =>
    exact inv_times_out k s alarm seen h hpc (by have := h.slack; omega) hsig
  | expire alarm hpc => exact inv_expire k s alarm h hpc

/-! ## Runs with early timeouts -/

theorem real_run_nil (s : State) : real_run s [] = s := rfl

theorem real_run_cons (s : State) (h : Happening) (hs : List Happening) :
    real_run s (h :: hs) = real_run (real_step s h) hs := rfl

theorem early_cases (s : State) :
    wait_times_out_early s = s ∨
      ∃ alarm seen, s.pc = Pc.timedwait alarm seen ∧ alarm.time = s.clock + 1 ∧
        s.store.signals = seen ∧
        wait_times_out_early s = State.mk s.store (Pc.timed_out alarm) s.clock s.out := by
  unfold wait_times_out_early
  split
  · rename_i alarm seen hpc
    by_cases hg : alarm.time = s.clock + 1 ∧ s.store.signals = seen
    · right
      exact ⟨alarm, seen, hpc, hg.1, hg.2, by rw [if_pos hg]⟩
    · left
      rw [if_neg hg]
  · left; rfl

theorem real_run_events (s : State) (hs : List Happening)
    (h : Happening.early_timeout ∉ hs) :
    real_run s hs = run s (events hs) ∧ real_submitted s hs = submitted s (events hs) := by
  induction hs generalizing s with
  | nil => exact ⟨rfl, rfl⟩
  | cons x rest ih =>
    cases x with
    | event e =>
      have h2 : Happening.early_timeout ∉ rest := fun hh => h (List.mem_cons_of_mem _ hh)
      obtain ⟨h3, h4⟩ := ih (step s e) h2
      exact ⟨h3, by
        show accepted s e ++ real_submitted (step s e) rest =
          accepted s e ++ submitted (step s e) (events rest)
        rw [h4]⟩
    | early_timeout => exact absurd (List.mem_cons_self _ _) h

theorem real_step_inv (k : Int) (s : State) (x : Happening) (h : Inv k s)
    (hsec : ∀ a ∈ real_accepted s x, k ≤ a.seconds)
    (hearly : x = Happening.early_timeout → 1 ≤ k) : Inv k (real_step s x) := by
  cases x with
  | event e => exact move_inv k s _ _ (step_move s e) h hsec
  | early_timeout =>
    show Inv k (wait_times_out_early s)
    rcases early_cases s with he | ⟨alarm, seen, hpc, hdue, hsig, he⟩
    · rw [he]; exact h
    · rw [he]
      have hk := hearly rfl
      exact inv_times_out k s alarm seen h hpc (by omega) hsig

theorem real_run_inv (k : Int) (s : State) (hs : List Happening) (h : Inv k s)
    (hsec : ∀ a ∈ real_submitted s hs, k ≤ a.seconds)
    (hearly : Happening.early_timeout ∈ hs → 1 ≤ k) : Inv k (real_run s hs) := by
  induction hs generalizing s with
  | nil => exact h
  | cons x rest ih =>
    rw [real_run_cons]
    simp only [real_submitted, List.mem_append] at hsec
    exact ih (real_step s x)
      (real_step_inv k s x h (fun a ha => hsec a (Or.inl ha))
        (fun hx => hearly (by rw [hx]; exact List.mem_cons_self _ _)))
      (fun a ha => hsec a (Or.inr ha))
      (fun hx => hearly (List.mem_cons_of_mem _ hx))

/-! ## Runs without input -/

theorem accepted_no_input (s : State) (e : Event) (h : is_input e = false) :
    accepted s e = [] := by
  cases e with
  | input line => cases h
  | tick d => rfl
  | iter => rfl
  | wake => rfl
  | spurious => rfl
  | timeout => rfl

theorem step_move_no_input (s : State) (e : Event) (h : is_input e = false) :
    Move s [] (step s e) := by
  have hm := step_move s e
  rw [accepted_no_input s e h] at hm
  exact hm

theorem no_input_turn : no_input turn := by decide

theorem no_input_append (es fs : List Event) (h1 : no_input es) (h2 : no_input fs) :
    no_input (es ++ fs) := by
  intro e he
  rcases List.mem_append.mp he with h | h
  · exact h1 e h
  · exact h2 e h

theorem no_input_turns (n : Nat) : no_input (turns n) := by
  induction n with
  | zero => intro e he; simp [turns] at he
  | succ n ih => exact no_input_append _ _ ih no_input_turn

theorem move_out_append (s t : State) (acc : List alarm_t) (hm : Move s acc t) :
    ∃ new, t.out = s.out ++ new := by
  cases hm with
  | stay => exact ⟨[], by simp⟩
  | reidle seen hpc hl => exact ⟨[], by simp⟩
  | tick d => exact ⟨[], by simp⟩
  | insert alarm hpc htime => exact ⟨[], by simp⟩
  | idle hpc hl => exact ⟨[], by simp⟩
  | fire alarm rest cur hpc hl hdue => exact ⟨[Out.fired alarm], rfl⟩
  | watch alarm rest hpc hl hnot => exact ⟨[], by simp⟩
  | rewait alarm seen hpc hcur => exact ⟨[], by simp⟩
  | preempt alarm seen hpc hcur => exact ⟨[], by simp⟩
  | times_out alarm seen hpc hdue hsig => exact ⟨[], by simp⟩
  | expire alarm hpc => exact ⟨[Out.expired, Out.fired alarm], rfl⟩

theorem run_out_append (s : State) (es : List Event) :
    ∃ new, (run s es).out = s.out ++ new := by
  induction es generalizing s with
  | nil => exact ⟨[], by simp [run]⟩
  | cons e rest ih =>
    obtain ⟨n1, h1⟩ := move_out_append s _ _ (step_move s e)
    obtain ⟨n2, h2⟩ := ih (step s e)
    exact ⟨n1 ++ n2, by rw [run_cons, h2, h1, List.append_assoc]⟩

theorem run_fired_append (s : State) (es : List Event) :
    ∃ G, fired (run s es).out = fired s.out ++ G := by
  obtain ⟨new, h⟩ := run_out_append s es
  exact ⟨fired new, by rw [h, fired_append]⟩

theorem move_clock_mono (s t : State) (acc : List alarm_t) (hm : Move s acc t) :
    s.clock ≤ t.clock := by
  cases hm with
  | tick d => show s.clock ≤ s.clock + d; omega
  | _ => exact le_refl _

theorem run_clock_mono (s : State) (es : List Event) : s.clock ≤ (run s es).clock := by
  induction es generalizing s with
  | nil => exact le_refl _
  | cons e rest ih =>
    exact le_trans (move_clock_mono s _ _ (step_move s e)) (ih (step s e))

theorem draining_move (base queue : List alarm_t) (s t : State)
    (hd : Draining base queue s) (hm : Move s [] t) : Draining base queue t := by
  obtain ⟨F, hF, hq⟩ := hd.split
  cases hm with
  | stay => exact hd
  | reidle seen hpc hl =>
    refine ⟨⟨F, hF, ?_⟩, (by intro h seen2 hh; cases hh), ?_, ?_⟩
    · rw [held_of_ready s (Or.inr (Or.inr ⟨seen, hpc⟩))] at hq
      rw [held_cond_wait]
      exact hq
    · intro n _ _
      exact hd.rest seen hpc hl
    · intro n _ hne
      exact absurd hl hne
  | tick d => exact ⟨⟨F, hF, hq⟩, hd.watch, hd.rest, hd.woken⟩
  | idle hpc hl =>
    refine ⟨⟨F, hF, ?_⟩, (by intro h seen hh; cases hh), fun _ _ _ => rfl, ?_⟩
    · rw [held_of_ready s (by tauto)] at hq
      rw [held_cond_wait]
      exact hq
    · intro n _ hne
      exact absurd hl hne
  | fire alarm rest cur hpc hl hdue =>
    refine ⟨⟨F ++ [alarm], ?_, ?_⟩, (by intro h seen hh; cases hh),
      (by intro n hh; cases hh), (by intro n hh; cases hh)⟩
    · show fired (s.out ++ [Out.fired alarm]) = base ++ (F ++ [alarm])
      rw [fired_append, hF]
      simp [fired]
    · rw [held_of_ready s hpc, hl] at hq
      rw [held_top, ← hq]
      simp
  | watch alarm rest hpc hl hnot =>
    refine ⟨⟨F, hF, ?_⟩, ?_, (by intro n hh; cases hh), (by intro n hh; cases hh)⟩
    · rw [held_of_ready s hpc, hl] at hq
      rw [held_timedwait, ← hq]
      simp
    · intro h seen hh
      cases hh
      exact ⟨rfl, rfl⟩
  | rewait alarm seen hpc hcur =>
    refine ⟨⟨F, hF, ?_⟩, ?_, (by intro n hh; cases hh), (by intro n hh; cases hh)⟩
    · rw [held_of_timedwait s alarm seen hpc] at hq
      rw [held_timedwait]
      exact hq
    · intro h seen2 hh
      cases hh
      exact ⟨hcur, rfl⟩
  | preempt alarm seen hpc hcur => exact absurd (hd.watch alarm seen hpc).1 hcur
  | times_out alarm seen hpc hdue hsig =>
    refine ⟨⟨F, hF, ?_⟩, (by intro h seen hh; cases hh),
      (by intro n hh; cases hh), (by intro n hh; cases hh)⟩
    rw [held_of_timedwait s alarm seen hpc] at hq
    rw [held_timed_out]
    exact hq
  | expire alarm hpc =>
    refine ⟨⟨F ++ [alarm], ?_, ?_⟩, (by intro h seen hh; cases hh),
      (by intro n hh; cases hh), (by intro n hh; cases hh)⟩
    · show fired (s.out ++ [Out.expired, Out.fired alarm]) = base ++ (F ++ [alarm])
      rw [fired_append, hF]
      simp [fired]
    · rw [held_of_timed_out s alarm hpc] at hq
      rw [held_top, ← hq]
      simp

theorem draining_run (base queue : List alarm_t) (s : State) (es : List Event)
    (hd : Draining base queue s) (hes : no_input es) : Draining base queue (run s es) := by
  induction es generalizing s with
  | nil => exact hd
  | cons e rest ih =>
    rw [run_cons]
    exact ih (step s e)
      (draining_move base queue s _ hd
        (step_move_no_input s e (hes e (List.mem_cons_self _ _))))
      (fun e2 he2 => hes e2 (List.mem_cons_of_mem _ he2))

theorem draining_prefix (base queue F : List alarm_t) (s : State)
    (hd : Draining base queue s) (hF : fired s.out = base ++ F) :
    F ++ held s ++ s.store.alarm_list = queue := by
  obtain ⟨F0, hF0, hq⟩ := hd.split
  have : F0 = F := List.append_cancel_left (hF0.symm.trans hF)
  rw [← this]; exact hq

theorem pop_front_due (s : State) (h : alarm_t) (R : List alarm_t)
    (hl : s.store.alarm_list = h :: R) (hdue : h.time ≤ s.clock) :
    pop_front s = State.mk (Store.mk R s.store.current_alarm s.store.signals)
      Pc.loop_top s.clock (s.out ++ [Out.fired h]) := by
  unfold pop_front
  split
  · rename_i hnil; rw [hl] at hnil; cases hnil
  · rename_i alarm rest hcons
    rw [hl] at hcons
    cases hcons
    rw [if_pos hdue]

theorem loop_iteration_due (s : State) (h : alarm_t) (R : List alarm_t)
    (hl : s.store.alarm_list = h :: R) (hdue : h.time ≤ s.clock) :
    loop_iteration s = State.mk (Store.mk R 0 s.store.signals)
      Pc.loop_top s.clock (s.out ++ [Out.fired h]) := by
  unfold loop_iteration
  rw [if_neg (by rw [hl]; simp)]
  exact pop_front_due _ h R hl hdue

theorem turn_fires (base queue F R : List alarm_t) (h : alarm_t) (s : State)
    (hd : Draining base queue s) (hF : fired s.out = base ++ F)
    (hq : queue = F ++ h :: R) (hdue : h.time ≤ s.clock) :
    ∃ G, fired (run s turn).out = base ++ F ++ h :: G := by
  have hsplit := draining_prefix base queue F s hd hF
  rw [hq, List.append_assoc] at hsplit
  have hrest : held s ++ s.store.alarm_list = h :: R := List.append_cancel_left hsplit
  have hfire : fired (s.out ++ [Out.fired h]) = base ++ F ++ [h] := by
    rw [fired_append, hF]; simp [fired]
  have hexp : fired (s.out ++ [Out.expired, Out.fired h]) = base ++ F ++ [h] := by
    rw [fired_append, hF]; simp [fired]
  cases hpc : s.pc with
  | unlocked =>
    have hl : s.store.alarm_list = h :: R := by
      rw [held_of_ready s (Or.inl hpc)] at hrest; simpa using hrest
    have h1 : step s Event.wake = s := by simp [step, signalled, hpc]
    have h2 : step s Event.timeout = s := by simp [step, wait_times_out, hpc]
    have h3 : step s Event.iter = loop_iteration s := by simp [step, hpc]
    refine ⟨[], ?_⟩
    simp only [turn, run, List.foldl, h1, h2, h3, loop_iteration_due s h R hl hdue, hfire]
  | loop_top =>
    have hl : s.store.alarm_list = h :: R := by
      rw [held_of_ready s (Or.inr (Or.inl hpc))] at hrest; simpa using hrest
    have h1 : step s Event.wake = s := by simp [step, signalled, hpc]
    have h2 : step s Event.timeout = s := by simp [step, wait_times_out, hpc]
    have h3 : step s Event.iter = loop_iteration s := by simp [step, hpc]
    refine ⟨[], ?_⟩
    simp only [turn, run, List.foldl, h1, h2, h3, loop_iteration_due s h R hl hdue, hfire]
  | cond_wait n =>
    have hl : s.store.alarm_list = h :: R := by
      rw [held_of_ready s (Or.inr (Or.inr ⟨n, hpc⟩))] at hrest; simpa using hrest
    have hw : s.store.signals ≠ n := hd.woken n hpc (by rw [hl]; simp)
    have h1 : step s Event.wake = pop_front s := by
      simp [step, signalled, wait_returns, hpc, hl, hw]
    obtain ⟨G, hG⟩ := run_fired_append (pop_front s) [Event.timeout, Event.iter]
    refine ⟨G, ?_⟩
    have hrun : run s turn = run (pop_front s) [Event.timeout, Event.iter] := by
      simp only [turn, run, List.foldl, h1]
    rw [hrun, hG, pop_front_due s h R hl hdue, hfire]
    simp
  | timedwait a seen =>
    have ha : a = h := by
      rw [held_of_timedwait s a seen hpc] at hrest
      simp at hrest
      exact hrest.1
    subst ha
    obtain ⟨hcur, hsig⟩ := hd.watch a seen hpc
    have h1 : step s Event.wake = s := by simp [step, signalled, hpc, hsig]
    have h2 : step s Event.timeout = State.mk s.store (Pc.timed_out a) s.clock s.out := by
      simp [step, wait_times_out, hpc, hdue, hsig]
    have h3 : step (State.mk s.store (Pc.timed_out a) s.clock s.out) Event.iter =
        State.mk s.store Pc.loop_top s.clock (s.out ++ [Out.expired, Out.fired a]) := by
      simp [step, expire]
    refine ⟨[], ?_⟩
    simp only [turn, run, List.foldl, h1, h2, h3, hexp]
  | timed_out a =>
    have ha : a = h := by
      rw [held_of_timed_out s a hpc] at hrest
      simp at hrest
      exact hrest.1
    subst ha
    have h1 : step s Event.wake = s := by simp [step, signalled, hpc]
    have h2 : step s Event.timeout = s := by simp [step, wait_times_out, hpc]
    have h3 : step s Event.iter =
        State.mk s.store Pc.loop_top s.clock (s.out ++ [Out.expired, Out.fired a]) := by
      simp [step, hpc, expire]
    refine ⟨[], ?_⟩
    simp only [turn, run, List.foldl, h1, h2, h3, hexp]

theorem turns_fire (base queue : List alarm_t) (P : List alarm_t) :
    ∀ (R : List alarm_t) (s : State), Draining base queue s → queue = P ++ R →
      (∀ o ∈ P, o.time ≤ s.clock) →
      ∃ G, fired (run s (turns P.length)).out = base ++ P ++ G := by
  induction P using List.reverseRecOn with
  | nil =>
    intro R s hd _ _
    obtain ⟨F, hF, -⟩ := hd.split
    exact ⟨F, by simpa [turns, run] using hF⟩
  | append_singleton P h ih =>
    intro R s hd hq hdue
    obtain ⟨G, hG⟩ := ih (h :: R) s hd (by rw [hq]; simp)
      (fun o ho => hdue o (List.mem_append_left _ ho))
    have hlen : turns (P ++ [h]).length = turns P.length ++ turn := by
      simp [turns]
    rw [hlen, run_append]
    have hd2 := draining_run base queue s (turns P.length) hd (no_input_turns _)
    have hdue2 : h.time ≤ (run s (turns P.length)).clock :=
      le_trans (hdue h (List.mem_append_right _ (List.mem_singleton_self _)))
        (run_clock_mono s _)
    cases G with
    | nil =>
      rw [List.append_nil] at hG
      obtain ⟨G2, hG2⟩ := turn_fires base queue P R h _ hd2 hG (by rw [hq]; simp) hdue2
      exact ⟨G2, by rw [hG2]; simp⟩
    | cons g G1 =>
      have hpre := draining_prefix base queue (P ++ g :: G1) _ hd2
        (by rw [hG, List.append_assoc])
      have hg : g = h := by
        rw [hq] at hpre
        simp only [List.append_assoc] at hpre
        have := List.append_cancel_left hpre
        simp at this
        exact this.1
      obtain ⟨G2, hG2⟩ := run_fired_append (run s (turns P.length)) turn
      exact ⟨G1 ++ G2, by rw [hG2, hG, hg]; simp⟩

theorem idle_with_move (F : List alarm_t) (s t : State)
    (h : idle_with F s) (hm : Move s [] t) : idle_with F t := by
  obtain ⟨hF, ⟨n, hpc⟩, hl, hcur⟩ := h
  cases hm with
  | stay => exact ⟨hF, ⟨n, hpc⟩, hl, hcur⟩
  | reidle seen hpc2 hl2 => exact ⟨hF, ⟨_, rfl⟩, hl, hcur⟩
  | tick d => exact ⟨hF, ⟨n, hpc⟩, hl, hcur⟩
  | idle hpc2 hl2 => exact ⟨hF, ⟨_, rfl⟩, hl, rfl⟩
  | fire alarm rest cur hpc2 hl2 hdue => rw [hl] at hl2; cases hl2
  | watch alarm rest hpc2 hl2 hnot => rw [hl] at hl2; cases hl2
  | rewait alarm seen hpc2 hc => rw [hpc] at hpc2; cases hpc2
  | preempt alarm seen hpc2 hc => rw [hpc] at hpc2; cases hpc2
  | times_out alarm seen hpc2 hdue hs => rw [hpc] at hpc2; cases hpc2
  | expire alarm hpc2 => rw [hpc] at hpc2; cases hpc2

theorem idle_with_run (F : List alarm_t) (s : State) (es : List Event)
    (h : idle_with F s) (hes : no_input es) : idle_with F (run s es) := by
  induction es generalizing s with
  | nil => exact h
  | cons e rest ih =>
    rw [run_cons]
    exact ih (step s e)
      (idle_with_move F s _ h (step_move_no_input s e (hes e (List.mem_cons_self _ _))))
      (fun e2 he2 => hes e2 (List.mem_cons_of_mem _ he2))

theorem drained_iter (base queue : List alarm_t) (s : State)
    (hd : Draining base queue s) (hF : fired s.out = base ++ queue) :
    idle_with (base ++ queue) (step s Event.iter) := by
  have hsplit := draining_prefix base queue queue s hd hF
  have hnil : held s ++ s.store.alarm_list = [] := by
    rw [List.append_assoc] at hsplit
    exact List.append_cancel_left (hsplit.trans (List.append_nil _).symm)
  have hheld : held s = [] := (List.append_eq_nil.mp hnil).1
  have hl : s.store.alarm_list = [] := (List.append_eq_nil.mp hnil).2
  cases hpc : s.pc with
  | unlocked =>
    have : step s Event.iter = State.mk (Store.mk s.store.alarm_list 0 s.store.signals)
        (Pc.cond_wait s.store.signals) s.clock s.out := by
      simp [step, hpc, loop_iteration, hl]
    rw [this]; exact ⟨hF, ⟨_, rfl⟩, hl, rfl⟩
  | loop_top =>
    have : step s Event.iter = State.mk (Store.mk s.store.alarm_list 0 s.store.signals)
        (Pc.cond_wait s.store.signals) s.clock s.out := by
      simp [step, hpc, loop_iteration, hl]
    rw [this]; exact ⟨hF, ⟨_, rfl⟩, hl, rfl⟩
  | cond_wait n =>
    have : step s Event.iter = s := by simp [step, hpc]
    rw [this]; exact ⟨hF, ⟨n, hpc⟩, hl, hd.rest n hpc hl⟩
  | timedwait a seen => rw [held_of_timedwait s a seen hpc] at hheld; cases hheld
  | timed_out a => rw [held_of_timed_out s a hpc] at hheld; cases hheld

theorem accepted_step (s : State) (e : Event) (x : alarm_t) (hx : accepted s e = [x]) :
    step s e = State.mk (alarm_insert x s.store) s.pc s.clock s.out ∧
      s.pc ≠ Pc.loop_top ∧ x.time = s.clock + x.seconds := by
  have hm := step_move s e
  rw [hx] at hm
  generalize step s e = t at hm
  cases hm with
  | insert alarm hpc htime => exact ⟨rfl, hpc, htime⟩

theorem reach_clock (t : Int) (s : State) : t ≤ (step s (reach t s)).clock := by
  show t ≤ s.clock + ((t - s.clock).toNat : Int)
  have := Int.self_le_toNat (t - s.clock)
  omega

theorem alarm_insert_current (n : alarm_t) (st : Store) :
    (alarm_insert n st).current_alarm =
      if st.current_alarm = 0 ∨ n.time < st.current_alarm then n.time
      else st.current_alarm := by
  unfold alarm_insert; split <;> rfl

theorem earliest_ne_zero (m : Int) (L : List alarm_t) (h : earliest m L)
    (hnz : ∀ o ∈ L, o.time ≠ 0) : m ≠ 0 := by
  obtain ⟨⟨o, ho, hom⟩, -⟩ := h
  rw [← hom]
  exact hnz o ho

theorem earliest_insert (n : alarm_t) (st : Store) (L L2 : List alarm_t)
    (hmem : ∀ o, o ∈ L2 ↔ o = n ∨ o ∈ L) (h : earliest st.current_alarm L)
    (hm : st.current_alarm ≠ 0) : earliest (alarm_insert n st).current_alarm L2 := by
  obtain ⟨⟨w, hw, hwm⟩, hle⟩ := h
  rw [alarm_insert_current]
  by_cases hlt : n.time < st.current_alarm
  · rw [if_pos (Or.inr hlt)]
    refine ⟨⟨n, (hmem n).mpr (Or.inl rfl), rfl⟩, ?_⟩
    intro o ho
    rcases (hmem o).mp ho with rfl | ho2
    · exact le_refl _
    · exact le_of_lt (lt_of_lt_of_le hlt (hle o ho2))
  · rw [if_neg (by
      intro hc
      rcases hc with hc | hc
      · exact hm hc
      · exact hlt hc)]
    refine ⟨⟨w, (hmem w).mpr (Or.inr hw), hwm⟩, ?_⟩
    intro o ho
    rcases (hmem o).mp ho with rfl | ho2
    · exact not_lt.mp hlt
    · exact hle o ho2

theorem tracks_start (c : Int) : Tracks (start c) where
  sorted := by simp [start, sorted_by_time]
  nonzero := by simp [start, held]
  idle := by intro n h; cases h
  watch := by
    intro a h
    rcases h with ⟨seen, h⟩ | h <;> cases h

theorem tracks_insert (s : State) (alarm : alarm_t) (h : Tracks s)
    (hnz : alarm.time ≠ 0) :
    Tracks (State.mk (alarm_insert alarm s.store) s.pc s.clock s.out) := by
  have hmem : ∀ o, o ∈ (alarm_insert alarm s.store).alarm_list ↔
      o = alarm ∨ o ∈ s.store.alarm_list := by
    intro o
    rw [alarm_insert_list]
    exact mem_splice alarm o _
  refine
    { sorted := insert_keeps_sorted alarm s.store h.sorted
      nonzero := ?_
      idle := ?_
      watch := ?_ }
  · intro o ho
    rcases ho with ho | ho
    · exact h.nonzero o (Or.inl ho)
    · rcases (hmem o).mp ho with rfl | ho2
      · exact hnz
      · exact h.nonzero o (Or.inr ho2)
  · intro n hpc
    right
    rcases h.idle n hpc with ⟨hl, hcur⟩ | he
    · show earliest (alarm_insert alarm s.store).current_alarm
        (alarm_insert alarm s.store).alarm_list
      rw [alarm_insert_current, if_pos (Or.inl hcur), alarm_insert_list, hl, splice_nil]
      exact ⟨⟨alarm, List.mem_singleton_self _, rfl⟩, fun o ho => by
        rw [List.mem_singleton] at ho
        rw [ho]⟩
    · exact earliest_insert alarm s.store _ _ hmem he
        (earliest_ne_zero _ _ he (fun o ho => h.nonzero o (Or.inr ho)))
  · intro a hpc
    have he := h.watch a hpc
    have hheld : a ∈ held s := by
      rcases hpc with ⟨seen, hp⟩ | hp
      · rw [held_of_timedwait s a seen hp]; exact List.mem_singleton_self _
      · rw [held_of_timed_out s a hp]; exact List.mem_singleton_self _
    refine earliest_insert alarm s.store (a :: s.store.alarm_list) _ ?_ he
      (earliest_ne_zero _ _ he (fun o ho => by
        rcases List.mem_cons.mp ho with rfl | ho2
        · exact h.nonzero _ (Or.inl hheld)
        · exact h.nonzero o (Or.inr ho2)))
    intro o
    show o ∈ a :: (alarm_insert alarm s.store).alarm_list ↔ _
    rw [List.mem_cons, hmem, List.mem_cons]
    tauto

theorem move_tracks (s t : State) (acc : List alarm_t) (hm : Move s acc t) (h : Tracks s)
    (hnz : ∀ a ∈ acc, a.time ≠ 0) : Tracks t := by
  cases hm with
  | stay => exact h
  | reidle seen hpc hl =>
    refine ⟨h.sorted, ?_, ?_, ?_⟩
    · intro o ho
      rw [held_cond_wait, ← held_of_ready s (Or.inr (Or.inr ⟨seen, hpc⟩))] at ho
      exact h.nonzero o ho
    · intro n _
      exact h.idle seen hpc
    · intro a hp
      rcases hp with ⟨n, hp⟩ | hp <;> cases hp
  | tick d => exact ⟨h.sorted, h.nonzero, h.idle, h.watch⟩
  | insert alarm hpc htime =>
    exact tracks_insert s alarm h (hnz alarm (List.mem_singleton_self _))
  | idle hpc hl =>
    refine ⟨h.sorted, ?_, fun _ _ => Or.inl ⟨hl, rfl⟩, ?_⟩
    · intro o ho
      rcases ho with ho | ho
      · rw [held_cond_wait] at ho; cases ho
      · exact h.nonzero o (Or.inr ho)
    · intro a hp
      rcases hp with ⟨n, hp⟩ | hp <;> cases hp
  | fire alarm rest cur hpc hl hdue =>
    have hs := h.sorted
    rw [hl] at hs
    refine ⟨(List.pairwise_cons.mp hs).2, ?_, (by intro n hp; cases hp), ?_⟩
    · intro o ho
      rcases ho with ho | ho
      · rw [held_top] at ho; cases ho
      · exact h.nonzero o (Or.inr (by rw [hl]; exact List.mem_cons_of_mem _ ho))
    · intro a hp
      rcases hp with ⟨n, hp⟩ | hp <;> cases hp
  | watch alarm rest hpc hl hnot =>
    have hs := h.sorted
    rw [hl] at hs
    refine ⟨(List.pairwise_cons.mp hs).2, ?_, (by intro n hp; cases hp), ?_⟩
    · intro o ho
      apply h.nonzero o
      right
      rw [hl]
      rcases ho with ho | ho
      · rw [held_timedwait, List.mem_singleton] at ho
        rw [ho]; exact List.mem_cons_self _ _
      · exact List.mem_cons_of_mem _ ho
    · intro a hp
      have ha : a = alarm := by
        rcases hp with ⟨n, hp⟩ | hp
        · cases hp; rfl
        · cases hp
      rw [ha]
      refine ⟨⟨alarm, List.mem_cons_self _ _, rfl⟩, ?_⟩
      intro o ho
      rcases List.mem_cons.mp ho with rfl | ho2
      · exact le_refl _
      · exact (List.pairwise_cons.mp hs).1 o ho2
  | rewait alarm seen hpc hcur =>
    refine ⟨h.sorted, ?_, (by intro n hp; cases hp), ?_⟩
    · intro o ho
      rw [held_timedwait, ← held_of_timedwait s alarm seen hpc] at ho
      exact h.nonzero o ho
    · intro a hp
      have ha : a = alarm := by
        rcases hp with ⟨n, hp⟩ | hp
        · cases hp; rfl
        · cases hp
      rw [ha]
      exact h.watch alarm (Or.inl ⟨seen, hpc⟩)
  | preempt alarm seen hpc hcur =>
    refine ⟨insert_keeps_sorted alarm s.store h.sorted, ?_, (by intro n hp; cases hp), ?_⟩
    · intro o ho
      rcases ho with ho | ho
      · rw [held_top] at ho; cases ho
      · have ho1 : o ∈ (alarm_insert alarm s.store).alarm_list := ho
        rw [alarm_insert_list] at ho1
        rcases (mem_splice alarm o _).mp ho1 with rfl | ho2
        · exact h.nonzero _ (Or.inl (by
            rw [held_of_timedwait s _ seen hpc]; exact List.mem_singleton_self _))
        · exact h.nonzero o (Or.inr ho2)
    · intro a hp
      rcases hp with ⟨n, hp⟩ | hp <;> cases hp
  | times_out alarm seen hpc hdue hsig =>
    refine ⟨h.sorted, ?_, (by intro n hp; cases hp), ?_⟩
    · intro o ho
      rw [held_timed_out, ← held_of_timedwait s alarm seen hpc] at ho
      exact h.nonzero o ho
    · intro a hp
      have ha : a = alarm := by
        rcases hp with ⟨n, hp⟩ | hp
        · cases hp
        · cases hp; rfl
      rw [ha]
      exact h.watch alarm (Or.inl ⟨seen, hpc⟩)
  | expire alarm hpc =>
    refine ⟨h.sorted, ?_, (by intro n hp; cases hp), ?_⟩
    · intro o ho
      rcases ho with ho | ho
      · rw [held_top] at ho; cases ho
      · exact h.nonzero o (Or.inr ho)
    · intro a hp
      rcases hp with ⟨n, hp⟩ | hp <;> cases hp

theorem run_tracks (s : State) (es : List Event) (h : Tracks s)
    (hnz : ∀ a ∈ submitted s es, a.time ≠ 0) : Tracks (run s es) := by
  induction es generalizing s with
  | nil => exact h
  | cons e rest ih =>
    rw [run_cons]
    simp only [submitted, List.mem_append] at hnz
    exact ih (step s e)
      (move_tracks s _ _ (step_move s e) h (fun a ha => hnz a (Or.inl ha)))
      (fun a ha => hnz a (Or.inr ha))

/-! ## The timed wait in runs with early timeouts -/

/-- C1: `alarm_insert` preserves sortedness. For every store whose list is in
ascending order of expiry time and every alarm, the list after `alarm_insert`
is again in ascending order of expiry time. -/
theorem alarm_insert_sorted (alarm : alarm_t) (st : Store)
    (h : sorted_by_time st.alarm_list) :
    sorted_by_time (alarm_insert alarm st).alarm_list := by
  rw [alarm_insert_list]
  exact splice_sorted alarm st.alarm_list h

/-- Instance of C1: an alarm due at 6 inserted between alarms due at 5 and 7. -/
theorem alarm_insert_sorted_witness :
    sorted_by_time
        (Store.mk [alarm_t.mk 1 5 ['p'], alarm_t.mk 3 7 ['q']] 5 0).alarm_list ∧
      sorted_by_time
        (alarm_insert (alarm_t.mk 2 6 ['r'])
          (Store.mk [alarm_t.mk 1 5 ['p'], alarm_t.mk 3 7 ['q']] 5 0)).alarm_list :=
  ⟨by decide, alarm_insert_sorted _ _ (by decide)⟩

/-- C2 as stated fails: two alarms with the same expiry time 5, `a` inserted
first and `b` second into the empty list, end up as `[b, a]`, so `a` does not
precede `b`. -/
theorem ties_stable_counterexample :
    (alarm_insert (alarm_t.mk 2 5 ['b'])
        (alarm_insert (alarm_t.mk 1 5 ['a']) (Store.mk [] 0 0))).alarm_list
      = [alarm_t.mk 2 5 ['b'], alarm_t.mk 1 5 ['a']] ∧
    ¬ precedes (alarm_t.mk 1 5 ['a']) (alarm_t.mk 2 5 ['b'])
        (alarm_insert (alarm_t.mk 2 5 ['b'])
          (alarm_insert (alarm_t.mk 1 5 ['a']) (Store.mk [] 0 0))).alarm_list := by
  decide

/-- C2, amended: among equal expiry times the later insertion comes first. For
every store and every two alarms `a`, `b` with equal expiry times, after
`alarm_insert a` and then `alarm_insert b` the list is the old elements due
strictly earlier, then `b`, then `a` right behind it, then the other old
elements; and when `a` and `b` are different alarms that were not in the list,
`b` precedes `a`. -/
theorem ties_reversed (a b : alarm_t) (st : Store) (h : a.time = b.time) :
    (alarm_insert b (alarm_insert a st)).alarm_list =
        st.alarm_list.takeWhile (fun x => decide (x.time < a.time)) ++
          b :: a :: st.alarm_list.dropWhile (fun x => decide (x.time < a.time)) ∧
      (a ≠ b → b ∉ st.alarm_list →
        precedes b a (alarm_insert b (alarm_insert a st)).alarm_list) := by
  have hlist : (alarm_insert b (alarm_insert a st)).alarm_list =
      st.alarm_list.takeWhile (fun x => decide (x.time < a.time)) ++
        b :: a :: st.alarm_list.dropWhile (fun x => decide (x.time < a.time)) := by
    rw [alarm_insert_list, alarm_insert_list, splice_eq a]
    exact splice_tie b a _ _ h.symm (fun x hx => by
      have hlt := List.mem_takeWhile_imp hx
      rw [← h]
      simpa using hlt)
  refine ⟨hlist, fun hab hb => ?_⟩
  rw [hlist]
  unfold precedes
  have hb1 : b ∉ st.alarm_list.takeWhile (fun x => decide (x.time < a.time)) :=
    fun hmem => hb (List.takeWhile_subset _ hmem)
  have ha1 : a ∉ st.alarm_list.takeWhile (fun x => decide (x.time < a.time)) := by
    intro hmem
    have := List.mem_takeWhile_imp hmem
    simp at this
  rw [List.indexOf_append_of_not_mem hb1, List.indexOf_append_of_not_mem ha1,
    List.indexOf_cons_self, List.indexOf_cons_ne _ (Ne.symm hab), List.indexOf_cons_self]
  omega

/-- Instance of C2 amended: the alarms `a` and `b` of the counterexample, put
into a list that holds an alarm due at 4 and one due at 5. -/
theorem ties_reversed_witness :
    (alarm_insert (alarm_t.mk 2 5 ['b']) (alarm_insert (alarm_t.mk 1 5 ['a'])
        (Store.mk [alarm_t.mk 7 4 ['p'], alarm_t.mk 8 5 ['q']] 4 0))).alarm_list
      = [alarm_t.mk 7 4 ['p'], alarm_t.mk 2 5 ['b'], alarm_t.mk 1 5 ['a'],
          alarm_t.mk 8 5 ['q']] :=
  (ties_reversed (alarm_t.mk 1 5 ['a']) (alarm_t.mk 2 5 ['b'])
    (Store.mk [alarm_t.mk 7 4 ['p'], alarm_t.mk 8 5 ['q']] 4 0) (by decide)).1

/-- C3: the preemption signal of `alarm_insert`. If `current_alarm` is 0 or the
new alarm's expiry time is strictly less than `current_alarm`, then afterwards
`current_alarm` is the new alarm's expiry time and exactly one more signal has
been sent; otherwise `current_alarm` and the number of signals sent are
unchanged. -/
theorem alarm_insert_signal (alarm : alarm_t) (st : Store) :
    (st.current_alarm = 0 ∨ alarm.time < st.current_alarm →
        (alarm_insert alarm st).current_alarm = alarm.time ∧
          (alarm_insert alarm st).signals = st.signals + 1) ∧
      (¬ (st.current_alarm = 0 ∨ alarm.time < st.current_alarm) →
        (alarm_insert alarm st).current_alarm = st.current_alarm ∧
          (alarm_insert alarm st).signals = st.signals) := by
  constructor
  · intro h
    simp [alarm_insert, h]
  · intro h
    simp [alarm_insert, h]

/-- Instances of C3: an insertion into an idle store, one that preempts, and
one that does neither. -/
theorem alarm_insert_signal_witness :
    ((alarm_insert (alarm_t.mk 3 103 ['A']) (Store.mk [] 0 0)).current_alarm = 103 ∧
        (alarm_insert (alarm_t.mk 3 103 ['A']) (Store.mk [] 0 0)).signals = 0 + 1) ∧
      ((alarm_insert (alarm_t.mk 1 101 ['B']) (Store.mk [] 103 1)).current_alarm = 101 ∧
        (alarm_insert (alarm_t.mk 1 101 ['B']) (Store.mk [] 103 1)).signals = 1 + 1) ∧
      ((alarm_insert (alarm_t.mk 9 109 ['C']) (Store.mk [] 103 1)).current_alarm = 103 ∧
        (alarm_insert (alarm_t.mk 9 109 ['C']) (Store.mk [] 103 1)).signals = 1) :=
  ⟨(alarm_insert_signal (alarm_t.mk 3 103 ['A']) (Store.mk [] 0 0)).1 (by decide),
    (alarm_insert_signal (alarm_t.mk 1 101 ['B']) (Store.mk [] 103 1)).1 (by decide),
    (alarm_insert_signal (alarm_t.mk 9 109 ['C']) (Store.mk [] 103 1)).2 (by decide)⟩

/-- C4: the insertion point of `alarm_insert`. The list afterwards is the
longest prefix of the old list whose expiry times are all strictly less than
the new alarm's, then the new alarm, then the rest of the old list. Every
element of that prefix is due strictly earlier, the element right behind the
new alarm (if there is one) is due at the same time or later, the old list is
left in its order as a sublist, the result holds the new alarm and the old
elements and nothing else, and the length grows by one. -/
theorem alarm_insert_point (alarm : alarm_t) (st : Store) :
    (alarm_insert alarm st).alarm_list =
        st.alarm_list.takeWhile (fun x => decide (x.time < alarm.time)) ++
          [alarm] ++ st.alarm_list.dropWhile (fun x => decide (x.time < alarm.time)) ∧
      (∀ x ∈ st.alarm_list.takeWhile (fun x => decide (x.time < alarm.time)),
        x.time < alarm.time) ∧
      (∀ x, (st.alarm_list.dropWhile (fun x => decide (x.time < alarm.time))).head? = some x →
        alarm.time ≤ x.time) ∧
      st.alarm_list.Sublist (alarm_insert alarm st).alarm_list ∧
      (alarm_insert alarm st).alarm_list.Perm (alarm :: st.alarm_list) ∧
      (alarm_insert alarm st).alarm_list.length = st.alarm_list.length + 1 := by
  have hlist : (alarm_insert alarm st).alarm_list =
      st.alarm_list.takeWhile (fun x => decide (x.time < alarm.time)) ++
        [alarm] ++ st.alarm_list.dropWhile (fun x => decide (x.time < alarm.time)) := by
    rw [alarm_insert_list, splice_eq]; simp
  have hperm : (alarm_insert alarm st).alarm_list.Perm (alarm :: st.alarm_list) := by
    rw [alarm_insert_list]; exact splice_perm alarm st.alarm_list
  refine ⟨hlist, ?_, ?_, ?_, hperm, ?_⟩
  · intro x hx
    simpa using List.mem_takeWhile_imp hx
  · intro x hx
    have := List.head?_dropWhile_not (fun x => decide (x.time < alarm.time)) st.alarm_list
    rw [hx] at this
    simpa using this
  · rw [hlist]
    have h := List.takeWhile_append_dropWhile
      (fun x => decide (x.time < alarm.time)) st.alarm_list
    conv_lhs => rw [← h]
    rw [List.append_assoc]
    exact List.Sublist.append (List.Sublist.refl _) (List.sublist_append_right _ _)
  · simpa using hperm.length_eq

/-- Instance of C4: an alarm due at 5 inserted into a list with alarms due at
4, 5 and 9 goes behind the first and before the second. -/
theorem alarm_insert_point_witness :
    (alarm_insert (alarm_t.mk 2 5 ['n'])
        (Store.mk [alarm_t.mk 7 4 ['p'], alarm_t.mk 8 5 ['q'], alarm_t.mk 9 9 ['r']] 4 0)
      ).alarm_list
      = [alarm_t.mk 7 4 ['p'], alarm_t.mk 2 5 ['n'], alarm_t.mk 8 5 ['q'],
          alarm_t.mk 9 9 ['r']] ∧
      (5 : Int) ≤ (alarm_t.mk 8 5 ['q']).time :=
  ⟨by
      have h := (alarm_insert_point (alarm_t.mk 2 5 ['n'])
        (Store.mk [alarm_t.mk 7 4 ['p'], alarm_t.mk 8 5 ['q'], alarm_t.mk 9 9 ['r']] 4 0)).1
      rw [h]; decide,
    (alarm_insert_point (alarm_t.mk 2 5 ['n'])
        (Store.mk [alarm_t.mk 7 4 ['p'], alarm_t.mk 8 5 ['q'], alarm_t.mk 9 9 ['r']] 4 0)
      ).2.2.1 (alarm_t.mk 8 5 ['q']) (by decide)⟩

/-! ## Properties of the worker and of the intake loop -/

/-- C5: no early firing. Take any state in which the assumption on the timed
wait holds (`timed_ok`: if the wait has timed out, the clock has reached the
wake time it was given), for instance the start of the process. In every run
from it, whenever a step prints the line of an alarm, the clock at that step
has reached the alarm's expiry time, and the step leaves the clock as it is. -/
theorem no_early_firing (s0 : State) (h0 : timed_ok s0) (es : List Event) (e : Event)
    (s : State) (hs : s = run s0 es) :
    (step s e).out = s.out ++ printed s e ∧
      (∀ a ∈ fired (printed s e), a.time ≤ s.clock) ∧
      (fired (printed s e) ≠ [] → (step s e).clock = s.clock) := by
  obtain ⟨new, hnew, hall, hclock⟩ := move_out s _ _ (step_move s e)
    (hs ▸ timed_ok_run s0 es h0)
  have hp : printed s e = new := by
    unfold printed
    rw [hnew]
    simp
  rw [hp]
  exact ⟨hnew, hall, hclock⟩

/-- Instance of C5: the alarm of the line "2 X" submitted at time 100 is printed
by the step that follows the timeout, with the clock at 102. -/
theorem no_early_firing_witness :
    alarm_t.mk 2 102 ['X'] ∈ fired (printed (run (start 100)
        [Event.input "2 X\n".toList, Event.iter, Event.tick 2, Event.timeout]) Event.iter) ∧
      (alarm_t.mk 2 102 ['X']).time ≤ (run (start 100)
        [Event.input "2 X\n".toList, Event.iter, Event.tick 2, Event.timeout]).clock :=
  ⟨by decide,
    (no_early_firing (start 100) (timed_ok_start 100)
      [Event.input "2 X\n".toList, Event.iter, Event.tick 2, Event.timeout]
      Event.iter _ rfl).2.1 (alarm_t.mk 2 102 ['X']) (by decide)⟩

/-- C7: preemption neither drops nor duplicates. After every run from the start
of the process, the alarms printed so far, the alarm the worker holds and the
alarms of the list together are exactly the alarms `main` inserted, each as
often as it was inserted; so when the inserted alarms are all different, every
one of them that is not yet printed is in one place only, once in the list or
held by the worker. In particular, when the worker's timed wait returns 0
(after a signal or spuriously) with `current_alarm` changed, the step prints
nothing, the worker holds no alarm afterwards and the list is the old list
with the held alarm added: the preempted alarm is in the list once and every
other alarm of the list is still there once. -/
theorem no_drop_no_duplicate (c : Int) (es : List Event)
    (s : State) (hs : s = run (start c) es) :
    (fired s.out ++ held s ++ s.store.alarm_list).Perm (submitted (start c) es) ∧
      ((submitted (start c) es).Nodup →
        ∀ a ∈ submitted (start c) es, a ∉ fired s.out →
          (held s).count a + s.store.alarm_list.count a = 1) ∧
      (∀ a seen e, s.pc = Pc.timedwait a seen → s.store.current_alarm ≠ a.time →
        e = Event.spurious ∨ (e = Event.wake ∧ s.store.signals ≠ seen) →
        (step s e).out = s.out ∧ held (step s e) = [] ∧
          (step s e).store.alarm_list.Perm (a :: s.store.alarm_list) ∧
          ((submitted (start c) es).Nodup →
            (step s e).store.alarm_list.count a = 1 ∧
            ∀ b ∈ s.store.alarm_list, (step s e).store.alarm_list.count b = 1)) := by
  have hperm : (fired s.out ++ held s ++ s.store.alarm_list).Perm
      (submitted (start c) es) := by
    rw [hs]
    simpa [start, held, fired] using run_perm (start c) es
  refine ⟨hperm, ?_, ?_⟩
  · intro hnd a ha hnf
    have hnd2 := (hperm.nodup_iff).mpr hnd
    have hmem : a ∈ fired s.out ++ held s ++ s.store.alarm_list := hperm.mem_iff.mpr ha
    have hc := List.count_eq_one_of_mem hnd2 hmem
    rw [List.count_append, List.count_append, List.count_eq_zero_of_not_mem hnf] at hc
    omega
  · intro a seen e hpc hcur he
    have hstep : step s e = State.mk (alarm_insert a s.store) Pc.loop_top s.clock s.out := by
      rcases he with rfl | ⟨rfl, hsig⟩
      · simp [step, wait_returns, hpc, hcur]
      · simp [step, signalled, wait_returns, hpc, hcur, hsig]
    have hlist : (step s e).store.alarm_list.Perm (a :: s.store.alarm_list) := by
      rw [hstep]
      show (alarm_insert a s.store).alarm_list.Perm _
      rw [alarm_insert_list]
      exact splice_perm _ _
    refine ⟨by rw [hstep], by rw [hstep]; rfl, hlist, ?_⟩
    intro hnd
    have hnd2 := (hperm.nodup_iff).mpr hnd
    have hheld : held s = [a] := by simp [held, hpc]
    rw [hheld] at hnd2
    have hnd3 : (a :: s.store.alarm_list).Nodup :=
      (List.nodup_append.mp ((List.append_assoc _ [a] _) ▸ hnd2)).2.1
    have hnd4 := (hlist.nodup_iff).mpr hnd3
    refine ⟨List.count_eq_one_of_mem hnd4 (hlist.mem_iff.mpr (List.mem_cons_self _ _)), ?_⟩
    intro b hb
    exact List.count_eq_one_of_mem hnd4 (hlist.mem_iff.mpr (List.mem_cons_of_mem _ hb))

/-- C6 as stated fails, in three ways.
* A negative delay: `main` accepts it. From the start at time 100 the line
  "1 A" gives an alarm due at 101, which is printed at time 101; ten seconds
  later, with the worker idle, the line "-15 B" gives an alarm due at 96,
  which is printed as soon as the worker wakes. The expiry times of the
  printed alarms are 101 and then 96.
* A delay that does not fit the `int`: in the same run the line
  "4294967281 B" is stored as the delay -15, with the same outcome.
* A delay of 0 after an early timeout: the line "2 A" at time 100 gives an
  alarm due at 102; the timed wait on it times out while `time(NULL)` still
  reads 101, and "A" is printed; the line "0 B" then gives an alarm due at
  101, which is printed as soon as the worker wakes. The expiry times of the
  printed alarms are 102 and then 101. -/
theorem fire_order_counterexample :
    ((fired (run (start 100)
        [Event.input "1 A\n".toList, Event.iter, Event.tick 1, Event.timeout, Event.iter,
          Event.iter, Event.tick 10, Event.input "-15 B\n".toList, Event.wake]).out).map
          alarm_t.time = [101, 96] ∧
      ¬ sorted_by_time (fired (run (start 100)
        [Event.input "1 A\n".toList, Event.iter, Event.tick 1, Event.timeout, Event.iter,
          Event.iter, Event.tick 10, Event.input "-15 B\n".toList, Event.wake]).out)) ∧
    ((fired (run (start 100)
        [Event.input "1 A\n".toList, Event.iter, Event.tick 1, Event.timeout, Event.iter,
          Event.iter, Event.tick 10, Event.input "4294967281 B\n".toList,
          Event.wake]).out).map (fun a => (a.seconds, a.time)) = [(1, 101), (-15, 96)] ∧
      ¬ sorted_by_time (fired (run (start 100)
        [Event.input "1 A\n".toList, Event.iter, Event.tick 1, Event.timeout, Event.iter,
          Event.iter, Event.tick 10, Event.input "4294967281 B\n".toList,
          Event.wake]).out)) ∧
    ((fired (real_run (start 100)
        [Happening.event (Event.input "2 A\n".toList), Happening.event Event.iter,
          Happening.event (Event.tick 1), Happening.early_timeout,
          Happening.event Event.iter, Happening.event Event.iter,
          Happening.event (Event.input "0 B\n".toList),
          Happening.event Event.wake]).out).map (fun a => (a.seconds, a.time))
        = [(2, 102), (0, 101)] ∧
      ¬ sorted_by_time (fired (real_run (start 100)
        [Happening.event (Event.input "2 A\n".toList), Happening.event Event.iter,
          Happening.event (Event.tick 1), Happening.early_timeout,
          Happening.event Event.iter, Happening.event Event.iter,
          Happening.event (Event.input "0 B\n".toList),
          Happening.event Event.wake]).out)) := by
  decide

/-- C6, amended: fire order for delays that are not negative. Take a run from
the start of the process with a positive clock, with both kinds of timeout of
the timed wait (the clock never goes back and does not change within an
atomic section). If no alarm `main` inserts has a negative delay, the delay
being the `int` stored in `seconds`, and, in case the run has a timeout that
comes while `time(NULL)` still reads the second before the wake time, every
such delay is at least 1, then under every interleaving of the steps the
printed alarms are in ascending order of expiry time. -/
theorem fire_order (c : Int) (hs : List Happening) (hc : 0 < c)
    (hsec : ∀ a ∈ real_submitted (start c) hs, 0 ≤ a.seconds)
    (hearly : Happening.early_timeout ∈ hs →
      ∀ a ∈ real_submitted (start c) hs, 1 ≤ a.seconds) :
    sorted_by_time (fired (real_run (start c) hs).out) := by
  by_cases hE : Happening.early_timeout ∈ hs
  · exact (real_run_inv 1 (start c) hs (inv_start 1 c (by decide) hc) (hearly hE)
      (fun _ => le_refl _)).fired_sorted
  · exact (real_run_inv 0 (start c) hs (inv_start 0 c (le_refl _) hc) hsec
      (fun h => absurd h hE)).fired_sorted

/-- Instance of C6 amended: the line "2 A" at time 100; the timed wait on "A"
times out while `time(NULL)` still reads 101 and "A" is printed; the line
"1 B" then gives an alarm due at 102, printed after its own timeout. Both
printed alarms are due at 102. -/
theorem fire_order_witness :
    (0 : Int) < 100 ∧
      (∀ a ∈ real_submitted (start 100)
          [Happening.event (Event.input "2 A\n".toList), Happening.event Event.iter,
            Happening.event (Event.tick 1), Happening.early_timeout,
            Happening.event Event.iter, Happening.event Event.iter,
            Happening.event (Event.input "1 B\n".toList), Happening.event Event.wake,
            Happening.event (Event.tick 1), Happening.event Event.timeout,
            Happening.event Event.iter], 1 ≤ a.seconds) ∧
      sorted_by_time (fired (real_run (start 100)
          [Happening.event (Event.input "2 A\n".toList), Happening.event Event.iter,
            Happening.event (Event.tick 1), Happening.early_timeout,
            Happening.event Event.iter, Happening.event Event.iter,
            Happening.event (Event.input "1 B\n".toList), Happening.event Event.wake,
            Happening.event (Event.tick 1), Happening.event Event.timeout,
            Happening.event Event.iter]).out) ∧
      (fired (real_run (start 100)
          [Happening.event (Event.input "2 A\n".toList), Happening.event Event.iter,
            Happening.event (Event.tick 1), Happening.early_timeout,
            Happening.event Event.iter, Happening.event Event.iter,
            Happening.event (Event.input "1 B\n".toList), Happening.event Event.wake,
            Happening.event (Event.tick 1), Happening.event Event.timeout,
            Happening.event Event.iter]).out).map alarm_t.time = [102, 102] :=
  ⟨by decide, by decide,
    fire_order 100
      [Happening.event (Event.input "2 A\n".toList), Happening.event Event.iter,
        Happening.event (Event.tick 1), Happening.early_timeout,
        Happening.event Event.iter, Happening.event Event.iter,
        Happening.event (Event.input "1 B\n".toList), Happening.event Event.wake,
        Happening.event (Event.tick 1), Happening.event Event.timeout,
        Happening.event Event.iter] (by decide) (by decide) (fun _ => by decide),
    by decide⟩

/-- Instance of C7: the lines "3 A" and "1 B" at time 100; when the worker wakes
from its wait on "A" it puts "A" back, and "A" and "B" are each in the list
once. -/
theorem no_drop_no_duplicate_witness :
    (step (run (start 100)
        [Event.input "3 A\n".toList, Event.iter, Event.input "1 B\n".toList])
        Event.wake).store.alarm_list.count (alarm_t.mk 3 103 ['A']) = 1 ∧
      ∀ b ∈ (run (start 100)
        [Event.input "3 A\n".toList, Event.iter, Event.input "1 B\n".toList]).store.alarm_list,
        (step (run (start 100)
          [Event.input "3 A\n".toList, Event.iter, Event.input "1 B\n".toList])
          Event.wake).store.alarm_list.count b = 1 :=
  ((no_drop_no_duplicate 100
    [Event.input "3 A\n".toList, Event.iter, Event.input "1 B\n".toList] _ rfl).2.2
      (alarm_t.mk 3 103 ['A']) 1 Event.wake (by decide) (by decide)
      (Or.inr ⟨rfl, by decide⟩)).2.2.2 (by decide)

/-- C8 as stated fails: a delay of zero, a negative delay and a message of 70
characters are all accepted; each of the three lines puts an alarm into the
list of the idle process. -/
theorem intake_rejection_counterexample :
    (step (start 100) (Event.input "0 x\n".toList)).store.alarm_list
        = [alarm_t.mk 0 100 ['x']] ∧
      (step (start 100) (Event.input "-5 x\n".toList)).store.alarm_list
        = [alarm_t.mk (-5) 95 ['x']] ∧
      (step (start 100) (Event.input ("7 ".toList ++ List.replicate 70 'm'))).store.alarm_list.length
        = 1 := by
  decide

/-- C8, amended: what the intake loop rejects. For every input line, if the line
has at most one character, or does not begin (after white space) with a digit
or with a sign followed by a digit, or has no message behind the number, the
request is rejected: the state is unchanged (`alarm_list`, `current_alarm`
and the signals sent) and no alarm is inserted. Every other line, whatever
the sign of its delay and the length of its message, is accepted when `main`
gets the mutex: exactly one alarm is inserted, due at the clock plus the
delay. -/
theorem intake_rejection (line : List Char) (s : State) :
    ((cstr line).length ≤ 1 ∨ starts_number (cstr line) = false ∨
        message_text (cstr line) = [] →
      step s (Event.input line) = s ∧ accepted s (Event.input line) = []) ∧
    (¬ ((cstr line).length ≤ 1 ∨ starts_number (cstr line) = false ∨
        message_text (cstr line) = []) → s.pc ≠ Pc.loop_top →
      ∃ alarm, accepted s (Event.input line) = [alarm] ∧
        alarm.time = s.clock + alarm.seconds ∧
        step s (Event.input line) =
          State.mk (alarm_insert alarm s.store) s.pc s.clock s.out) := by
  constructor
  · intro h
    have hrej : main_loop line s = s := by
      unfold main_loop
      rcases h with h | h
      · simp [h]
      · simp [sscanf_alarm_none _ h]
    constructor
    · cases hpc : s.pc <;> simp [step, hpc, hrej]
    · cases hpc : s.pc <;> simp only [accepted, hpc]
      all_goals
        rcases h with h | h
        · simp [h]
        · simp [sscanf_alarm_none _ h]
  · intro h hpc
    simp only [not_or] at h
    obtain ⟨hlen, hnum, hmsg⟩ := h
    have hnum2 : starts_number (cstr line) = true := by simpa using hnum
    obtain ⟨v, hv⟩ := sscanf_alarm_some _ hnum2 hmsg
    refine ⟨alarm_t.mk v (s.clock + v) ((message_text (cstr line)).take 64), ?_, rfl, ?_⟩
    · cases hp : s.pc with
      | loop_top => exact absurd hp hpc
      | unlocked | cond_wait | timedwait _ _ | timed_out _ =>
        simp [accepted, hp, hlen, hv]
    · cases hp : s.pc with
      | loop_top => exact absurd hp hpc
      | unlocked | cond_wait | timedwait _ _ | timed_out _ =>
        simp [step, hp, main_loop, hlen, hv]

/-- Instances of C8 amended: the blank line, a line without a number and a line
without a message leave the state as it is. -/
theorem intake_rejection_witness :
    step (start 100) (Event.input "\n".toList) = start 100 ∧
      step (start 100) (Event.input "soon x\n".toList) = start 100 ∧
      step (start 100) (Event.input "5 \n".toList) = start 100 ∧
      ∃ alarm, accepted (start 100) (Event.input "-5 x\n".toList) = [alarm] ∧
        alarm.time = (start 100).clock + alarm.seconds ∧
        step (start 100) (Event.input "-5 x\n".toList) =
          State.mk (alarm_insert alarm (start 100).store) (start 100).pc (start 100).clock
            (start 100).out :=
  ⟨((intake_rejection "\n".toList (start 100)).1 (by decide)).1,
    ((intake_rejection "soon x\n".toList (start 100)).1 (by decide)).1,
    ((intake_rejection "5 \n".toList (start 100)).1 (by decide)).1,
    (intake_rejection "-5 x\n".toList (start 100)).2 (by decide) (by decide)⟩

/-- C10: a single alarm runs to idle. Let the worker be idle, waiting on the
empty list with `current_alarm = 0`, and let `main` accept a line and insert
its alarm `x`, with no further input. Then at every point of the run the
alarms printed since are none or `x` alone; and from every such point, once
the clock has reached `x`'s expiry time and the worker has had its turn
and run on, `x` has been printed exactly once and the worker is idle again,
with the list empty and `current_alarm = 0`, and stays so whatever else
happens without input. The line printed for `x` is `(<delay>) <message>`
(`render`). -/
theorem single_alarm_run (s0 : State) (n : Nat) (line : List Char) (x : alarm_t)
    (hpc : s0.pc = Pc.cond_wait n) (hn : n ≤ s0.store.signals)
    (hl : s0.store.alarm_list = []) (hcur : s0.store.current_alarm = 0)
    (hx : accepted s0 (Event.input line) = [x])
    (es : List Event) (hes : no_input es)
    (t : State) (ht : t = run (step s0 (Event.input line)) es) :
    (fired t.out = fired s0.out ∨ fired t.out = fired s0.out ++ [x]) ∧
      ∀ fs, no_input fs → ∀ u, u = run t (reach x.time t :: turn ++ Event.iter :: fs) →
        fired u.out = fired s0.out ++ [x] ∧ (∃ m, u.pc = Pc.cond_wait m) ∧
          u.store.alarm_list = [] ∧ u.store.current_alarm = 0 := by
  obtain ⟨hs1, -, -⟩ := accepted_step s0 _ x hx
  have hd1 : Draining (fired s0.out) [x] (step s0 (Event.input line)) := by
    rw [hs1]
    refine ⟨⟨[], by simp, ?_⟩, ?_, ?_, ?_⟩
    · have hh : held (State.mk (alarm_insert x s0.store) s0.pc s0.clock s0.out) = [] := by
        simp [held, hpc]
      rw [hh]
      show [] ++ [] ++ (alarm_insert x s0.store).alarm_list = [x]
      rw [alarm_insert_list, hl, splice_nil]
      rfl
    · intro h seen hh
      rw [hpc] at hh
      cases hh
    · intro _ _ hnil
      have hnil2 : (alarm_insert x s0.store).alarm_list = [] := hnil
      rw [alarm_insert_list, hl, splice_nil] at hnil2
      cases hnil2
    · intro m hm _
      have hm2 : s0.pc = Pc.cond_wait m := hm
      rw [hpc] at hm2
      cases hm2
      have hsig : (alarm_insert x s0.store).signals = s0.store.signals + 1 := by
        simp [alarm_insert, hcur]
      show (alarm_insert x s0.store).signals ≠ n
      rw [hsig]
      omega
  have hdt : Draining (fired s0.out) [x] t := by
    rw [ht]; exact draining_run _ _ _ es hd1 hes
  constructor
  · obtain ⟨F, hF, hq⟩ := hdt.split
    cases F with
    | nil => left; simpa using hF
    | cons f F1 =>
      right
      simp only [List.append_assoc, List.cons_append] at hq
      have h1 := List.cons.inj hq
      have h2 : F1 = [] := (List.append_eq_nil.mp h1.2).1
      rw [hF, h1.1, h2]
  · intro fs hfs u hu
    have hrun : u = run (step (run (step t (reach x.time t)) turn) Event.iter) fs := by
      rw [hu]
      simp only [run, List.foldl_cons, List.foldl_append]
    have hd2 : Draining (fired s0.out) [x] (step t (reach x.time t)) :=
      draining_move _ _ t _ hdt (step_move_no_input t _ rfl)
    obtain ⟨G, hG⟩ := turns_fire (fired s0.out) [x] [x] [] _ hd2 rfl
      (fun o ho => by
        rw [List.mem_singleton] at ho
        rw [ho]
        exact reach_clock x.time t)
    have hturns : turns [x].length = turn := by simp [turns]
    rw [hturns] at hG
    have hd3 := draining_run _ _ _ turn hd2 no_input_turn
    have hsplit := draining_prefix _ _ _ _ hd3 (by rw [hG, List.append_assoc])
    have hGnil : G = [] := by
      simp only [List.append_assoc, List.cons_append, List.nil_append] at hsplit
      have h1 := List.cons.inj hsplit
      exact (List.append_eq_nil.mp h1.2).1
    rw [hGnil, List.append_nil] at hG
    have hidle := idle_with_run _ _ fs (drained_iter _ _ _ hd3 hG) hfs
    rw [← hrun] at hidle
    exact hidle

/-- Instance of C10: the line "2 X" at time 100 with the worker idle. The worker
wakes and starts its timed wait; two seconds later the wait times out and the
output is the line "Expired" and the one line "(2) X", with the worker idle. -/
theorem single_alarm_run_witness :
    (run (run (step (State.mk (Store.mk [] 0 0) (Pc.cond_wait 0) 100 [])
          (Event.input "2 X\n".toList)) [Event.wake])
        (reach 102 (run (step (State.mk (Store.mk [] 0 0) (Pc.cond_wait 0) 100 [])
          (Event.input "2 X\n".toList)) [Event.wake]) :: turn ++ Event.iter :: [])).out.map render
      = ["Expired\n", "(2) X\n"] ∧
    (fired (run (run (step (State.mk (Store.mk [] 0 0) (Pc.cond_wait 0) 100 [])
          (Event.input "2 X\n".toList)) [Event.wake])
        (reach 102 (run (step (State.mk (Store.mk [] 0 0) (Pc.cond_wait 0) 100 [])
          (Event.input "2 X\n".toList)) [Event.wake]) :: turn ++ Event.iter :: [])).out
      = [] ++ [alarm_t.mk 2 102 ['X']] ∧
    (∃ m, (run (run (step (State.mk (Store.mk [] 0 0) (Pc.cond_wait 0) 100 [])
          (Event.input "2 X\n".toList)) [Event.wake])
        (reach 102 (run (step (State.mk (Store.mk [] 0 0) (Pc.cond_wait 0) 100 [])
          (Event.input "2 X\n".toList)) [Event.wake]) :: turn ++ Event.iter :: [])).pc
      = Pc.cond_wait m) ∧
    (run (run (step (State.mk (Store.mk [] 0 0) (Pc.cond_wait 0) 100 [])
          (Event.input "2 X\n".toList)) [Event.wake])
        (reach 102 (run (step (State.mk (Store.mk [] 0 0) (Pc.cond_wait 0) 100 [])
          (Event.input "2 X\n".toList)) [Event.wake]) :: turn ++ Event.iter :: [])
      ).store.alarm_list = [] ∧
    (run (run (step (State.mk (Store.mk [] 0 0) (Pc.cond_wait 0) 100 [])
          (Event.input "2 X\n".toList)) [Event.wake])
        (reach 102 (run (step (State.mk (Store.mk [] 0 0) (Pc.cond_wait 0) 100 [])
          (Event.input "2 X\n".toList)) [Event.wake]) :: turn ++ Event.iter :: [])
      ).store.current_alarm = 0) :=
  ⟨by decide,
    (single_alarm_run (State.mk (Store.mk [] 0 0) (Pc.cond_wait 0) 100 []) 0 "2 X\n".toList
      (alarm_t.mk 2 102 ['X']) rfl (by decide) rfl rfl (by decide) [Event.wake] (by decide)
      _ rfl).2 [] (by decide) _ rfl⟩

/-- C12: `current_alarm` tracks the earliest outstanding deadline. Take a run from
the start of the process in which no alarm `main` inserts is due at time 0.
Whenever the worker has released the mutex in a wait (`pthread_cond_wait`, or
`pthread_cond_timedwait`, also once it has timed out and the mutex is not yet
taken again), then either the list is empty, the worker holds no alarm and
`current_alarm` is 0, or `current_alarm` is the earliest expiry time of the
alarm the worker holds (if any) and the alarms of the list. -/
theorem current_alarm_tracks (c : Int) (es : List Event)
    (hnz : ∀ a ∈ submitted (start c) es, a.time ≠ 0)
    (s : State) (hs : s = run (start c) es)
    (hblocked : (∃ n, s.pc = Pc.cond_wait n) ∨ (∃ a seen, s.pc = Pc.timedwait a seen) ∨
      ∃ a, s.pc = Pc.timed_out a) :
    (s.store.alarm_list = [] ∧ held s = [] ∧ s.store.current_alarm = 0) ∨
      earliest s.store.current_alarm (held s ++ s.store.alarm_list) := by
  have ht : Tracks s := hs ▸ run_tracks (start c) es (tracks_start c) hnz
  rcases hblocked with ⟨n, hpc⟩ | ⟨a, seen, hpc⟩ | ⟨a, hpc⟩
  · have hheld := held_of_ready s (Or.inr (Or.inr ⟨n, hpc⟩))
    rcases ht.idle n hpc with ⟨hl, hcur⟩ | he
    · exact Or.inl ⟨hl, hheld, hcur⟩
    · right
      rw [hheld]
      exact he
  · right
    rw [held_of_timedwait s a seen hpc]
    exact ht.watch a (Or.inl ⟨seen, hpc⟩)
  · right
    rw [held_of_timed_out s a hpc]
    exact ht.watch a (Or.inr hpc)

/-- Instance of C12: "3 A" is submitted at time 100 and the worker starts its
wait on it; "1 B" is submitted at once. While the worker is still in the wait,
`current_alarm` is 101, the expiry time of "B", the earliest of the two. -/
theorem current_alarm_tracks_witness :
    (run (start 100) [Event.input "3 A\n".toList, Event.iter,
        Event.input "1 B\n".toList]).store.current_alarm = 101 ∧
      earliest
        (run (start 100) [Event.input "3 A\n".toList, Event.iter,
          Event.input "1 B\n".toList]).store.current_alarm
        (held (run (start 100) [Event.input "3 A\n".toList, Event.iter,
            Event.input "1 B\n".toList]) ++
          (run (start 100) [Event.input "3 A\n".toList, Event.iter,
            Event.input "1 B\n".toList]).store.alarm_list) :=
  ⟨by decide,
    (current_alarm_tracks 100
      [Event.input "3 A\n".toList, Event.iter, Event.input "1 B\n".toList]
      (by decide) _ rfl
      (Or.inr (Or.inl ⟨alarm_t.mk 3 103 ['A'], 1, by decide⟩))).resolve_left (by decide)⟩

end AlarmCond

namespace Backoff

/-! ## Lemmas on the lockers -/

theorem forward_unwind_backoffs (n : Nat) : ∀ l : Locker,
    (forward_unwind n l).backoffs = l.backoffs := by
  induction n with
  | zero => intro l; rfl
  | succ n ih => intro l; rw [forward_unwind, ih]; rfl

theorem forward_unwind_drops (n : Nat) : ∀ l : Locker,
    (0 : Int) ∉ (forward_unwind (n + 1) l).held := by
  induction n with
  | zero =>
    intro l
    simp [forward_unwind, mutex_unlock]
  | succ n ih =>
    intro l
    rw [forward_unwind]
    exact ih _

theorem forward_body_ok (oracle : Nat → Status) (j : Int) (l : Locker) (hj : j ≠ 0)
    (h : oracle l.next = Status.ok) :
    forward_body true oracle j l =
      (j, Locker.mk (j :: l.held) l.backoffs (l.next + 1)
        (l.log ++ [Op.trylock j Status.ok])) := by
  simp [forward_body, hj, mutex_trylock, h]

theorem forward_body_busy (oracle : Nat → Status) (j : Int) (l : Locker) (hj : j ≠ 0)
    (h : oracle l.next = Status.ebusy) :
    forward_body true oracle j l =
      (0, forward_unwind j.toNat (Locker.mk l.held (l.backoffs + 1) (l.next + 1)
        (l.log ++ [Op.trylock j Status.ebusy] ++ [Op.backing_off j]))) := by
  simp [forward_body, hj, mutex_trylock, h]

theorem forward_locks_inv (oracle : Nat → Status) (fuel : Nat) : ∀ (j : Int) (l l2 : Locker),
    1 ≤ j → 0 ≤ l.backoffs → (0 < l.backoffs → (0 : Int) ∉ l.held) →
    (l.backoffs = 0 → ∀ k : Int, 0 ≤ k → k < j → k ∈ l.held) →
    forward_locks true oracle fuel j l = some l2 →
    0 ≤ l2.backoffs ∧ (0 < l2.backoffs → (0 : Int) ∉ l2.held) ∧
      (l2.backoffs = 0 → ∀ k : Int, 0 ≤ k → k < 3 → k ∈ l2.held) := by
  induction fuel with
  | zero =>
    intro j l l2 hj hb hdrop hall hrun
    by_cases hlt : j < 3
    · simp [forward_locks, hlt] at hrun
    · simp only [forward_locks, hlt, if_false, Option.some.injEq] at hrun
      rw [← hrun]
      exact ⟨hb, hdrop, fun h0 k hk0 hk3 => hall h0 k hk0 (by omega)⟩
  | succ fuel ih =>
    intro j l l2 hj hb hdrop hall hrun
    by_cases hlt : j < 3
    · simp only [forward_locks, hlt, if_true] at hrun
      have hj0 : j ≠ 0 := by omega
      cases ho : oracle l.next with
      | ok =>
        rw [forward_body_ok oracle j l hj0 ho] at hrun
        refine ih (j + 1) (Locker.mk (j :: l.held) l.backoffs (l.next + 1)
          (l.log ++ [Op.trylock j Status.ok])) l2 (by omega) hb ?_ ?_ hrun
        · intro hpos
          have := hdrop hpos
          simp only [List.mem_cons, not_or]
          exact ⟨fun h0 => hj0 h0.symm, this⟩
        · intro h0 k hk0 hk
          by_cases hkj : k = j
          · rw [hkj]; exact List.mem_cons_self _ _
          · exact List.mem_cons_of_mem _ (hall h0 k hk0 (by omega))
      | ebusy =>
        rw [forward_body_busy oracle j l hj0 ho] at hrun
        have hn : j.toNat = (j.toNat - 1) + 1 := by omega
        refine ih (0 + 1) (forward_unwind j.toNat (Locker.mk l.held (l.backoffs + 1)
          (l.next + 1) (l.log ++ [Op.trylock j Status.ebusy] ++ [Op.backing_off j])))
          l2 (by omega) ?_ ?_ ?_ hrun
        · rw [forward_unwind_backoffs]
          show 0 ≤ l.backoffs + 1
          omega
        · intro _
          rw [hn]
          exact forward_unwind_drops _ _
        · intro h0
          rw [forward_unwind_backoffs] at h0
          have h1 : l.backoffs + 1 = 0 := h0
          omega
    · simp only [forward_locks, hlt, if_false, Option.some.injEq] at hrun
      rw [← hrun]
      exact ⟨hb, hdrop, fun h0 k hk0 hk3 => hall h0 k hk0 (by omega)⟩

/-- When `lock_forward` runs with the backoff, it arrives at its message "got all
mutexes" holding all three mutexes exactly when it did not back off in the
iteration; after a backoff it does not hold `mutex[0]`. -/
theorem forward_got_all_iff (oracle : Nat → Status) (fuel : Nat) (l l2 : Locker)
    (h : forward_locks true oracle fuel 0 { l with backoffs := 0 } = some l2) :
    (holds_all l2.held ↔ l2.backoffs = 0) ∧ (0 < l2.backoffs → (0 : Int) ∉ l2.held) := by
  cases fuel with
  | zero => simp [forward_locks] at h
  | succ fuel =>
    have hbody : forward_body true oracle 0 { l with backoffs := 0 } =
        (0, mutex_lock 0 { l with backoffs := 0 }) := by
      simp [forward_body]
    simp only [forward_locks, show (0 : Int) < 3 by decide, if_true, hbody] at h
    obtain ⟨hb, hdrop, hall⟩ := forward_locks_inv oracle fuel (0 + 1)
      (mutex_lock 0 { l with backoffs := 0 }) l2 (by decide)
      (le_refl _) (fun hpos => absurd hpos (lt_irrefl _))
      (fun _ k hk0 hk1 => by
        have hk : k = 0 := by omega
        rw [hk]
        exact List.mem_cons_self _ _) h
    refine ⟨⟨fun hh => ?_, fun h0 => ?_⟩, hdrop⟩
    · by_contra hne
      exact hdrop (lt_of_le_of_ne hb (Ne.symm hne)) hh.1
    · exact ⟨hall h0 0 (by decide) (by decide), hall h0 1 (by decide) (by decide),
        hall h0 2 (by decide) (by decide)⟩

/-- Instance of `forward_got_all_iff`: after one backoff the thread arrives at
the message with `mutex[1]` and `mutex[2]` only. -/
theorem forward_got_all_iff_witness :
    (0 : Int) ∉ (Locker.mk [2, 1] 1 3
      [Op.lock 0, Op.trylock 1 Status.ebusy, Op.backing_off 1, Op.unlock 0 true,
        Op.trylock 1 Status.ok, Op.trylock 2 Status.ok]).held :=
  (forward_got_all_iff busy_once 4 fresh _ (by decide)).2 (by decide)

theorem backward_unwind_backoffs (count : Nat) : ∀ (j : Int) (l : Locker),
    (backward_unwind count j l).backoffs = l.backoffs := by
  induction count with
  | zero => intro j l; rfl
  | succ count ih => intro j l; rw [backward_unwind, ih]; rfl

theorem backward_unwind_drops (count : Nat) : ∀ (j : Int) (l : Locker),
    j + ((count + 1 : Nat) : Int) = 2 → (2 : Int) ∉ (backward_unwind (count + 1) j l).held := by
  induction count with
  | zero =>
    intro j l hj
    have hj1 : j + 1 = 2 := by omega
    simp [backward_unwind, mutex_unlock, hj1]
  | succ count ih =>
    intro j l hj
    rw [backward_unwind]
    exact ih (j + 1) _ (by push_cast at hj ⊢; omega)

theorem backward_body_ok (oracle : Nat → Status) (j : Int) (l : Locker) (hj : j ≠ 2)
    (h : oracle l.next = Status.ok) :
    backward_body true oracle j l =
      (j, Locker.mk (j :: l.held) l.backoffs (l.next + 1)
        (l.log ++ [Op.trylock j Status.ok])) := by
  simp [backward_body, hj, mutex_trylock, h]

theorem backward_body_busy (oracle : Nat → Status) (j : Int) (l : Locker) (hj : j ≠ 2)
    (h : oracle l.next = Status.ebusy) :
    backward_body true oracle j l =
      (2, backward_unwind (2 - j).toNat j (Locker.mk l.held (l.backoffs + 1) (l.next + 1)
        (l.log ++ [Op.trylock j Status.ebusy] ++ [Op.backing_off j]))) := by
  simp [backward_body, hj, mutex_trylock, h]

theorem backward_locks_inv (oracle : Nat → Status) (fuel : Nat) : ∀ (j : Int) (l l2 : Locker),
    j ≤ 1 → 0 ≤ l.backoffs → (0 < l.backoffs → (2 : Int) ∉ l.held) →
    (l.backoffs = 0 → ∀ k : Int, j < k → k ≤ 2 → k ∈ l.held) →
    backward_locks true oracle fuel j l = some l2 →
    0 ≤ l2.backoffs ∧ (0 < l2.backoffs → (2 : Int) ∉ l2.held) ∧
      (l2.backoffs = 0 → ∀ k : Int, 0 ≤ k → k ≤ 2 → k ∈ l2.held) := by
  induction fuel with
  | zero =>
    intro j l l2 hj hb hdrop hall hrun
    by_cases hge : 0 ≤ j
    · simp [backward_locks, hge] at hrun
    · simp only [backward_locks, hge, if_false, Option.some.injEq] at hrun
      rw [← hrun]
      exact ⟨hb, hdrop, fun h0 k hk0 hk2 => hall h0 k (by omega) hk2⟩
  | succ fuel ih =>
    intro j l l2 hj hb hdrop hall hrun
    by_cases hge : 0 ≤ j
    · simp only [backward_locks, hge, if_true] at hrun
      have hj2 : j ≠ 2 := by omega
      cases ho : oracle l.next with
      | ok =>
        rw [backward_body_ok oracle j l hj2 ho] at hrun
        refine ih (j - 1) (Locker.mk (j :: l.held) l.backoffs (l.next + 1)
          (l.log ++ [Op.trylock j Status.ok])) l2 (by omega) hb ?_ ?_ hrun
        · intro hpos
          have := hdrop hpos
          simp only [List.mem_cons, not_or]
          exact ⟨fun h2 => hj2 h2.symm, this⟩
        · intro h0 k hk hk2
          by_cases hkj : k = j
          · rw [hkj]; exact List.mem_cons_self _ _
          · exact List.mem_cons_of_mem _ (hall h0 k (by omega) hk2)
      | ebusy =>
        rw [backward_body_busy oracle j l hj2 ho] at hrun
        have hn : (2 - j).toNat = ((2 - j).toNat - 1) + 1 := by omega
        refine ih (2 - 1) (backward_unwind (2 - j).toNat j (Locker.mk l.held (l.backoffs + 1)
          (l.next + 1) (l.log ++ [Op.trylock j Status.ebusy] ++ [Op.backing_off j])))
          l2 (by omega) ?_ ?_ ?_ hrun
        · rw [backward_unwind_backoffs]
          show 0 ≤ l.backoffs + 1
          omega
        · intro _
          rw [hn]
          exact backward_unwind_drops _ _ _ (by push_cast; omega)
        · intro h0
          rw [backward_unwind_backoffs] at h0
          have h1 : l.backoffs + 1 = 0 := h0
          omega
    · simp only [backward_locks, hge, if_false, Option.some.injEq] at hrun
      rw [← hrun]
      exact ⟨hb, hdrop, fun h0 k hk0 hk2 => hall h0 k (by omega) hk2⟩

/-- When `lock_backward` runs with the backoff, it arrives at its message "got
all mutexes" holding all three mutexes exactly when it did not back off in the
iteration; after a backoff it does not hold `mutex[2]`. -/
theorem backward_got_all_iff (oracle : Nat → Status) (fuel : Nat) (l l2 : Locker)
    (h : backward_locks true oracle fuel 2 { l with backoffs := 0 } = some l2) :
    (holds_all l2.held ↔ l2.backoffs = 0) ∧ (0 < l2.backoffs → (2 : Int) ∉ l2.held) := by
  cases fuel with
  | zero => simp [backward_locks] at h
  | succ fuel =>
    have hbody : backward_body true oracle 2 { l with backoffs := 0 } =
        (2, mutex_lock 2 { l with backoffs := 0 }) := by
      simp [backward_body]
    simp only [backward_locks, show (0 : Int) ≤ 2 by decide, if_true, hbody] at h
    obtain ⟨hb, hdrop, hall⟩ := backward_locks_inv oracle fuel (2 - 1)
      (mutex_lock 2 { l with backoffs := 0 }) l2 (by decide)
      (le_refl _) (fun hpos => absurd hpos (lt_irrefl _))
      (fun _ k hk1 hk2 => by
        have hk : k = 2 := by omega
        rw [hk]
        exact List.mem_cons_self _ _) h
    refine ⟨⟨fun hh => ?_, fun h0 => ?_⟩, hdrop⟩
    · by_contra hne
      exact hdrop (lt_of_le_of_ne hb (Ne.symm hne)) hh.2.2
    · exact ⟨hall h0 0 (by decide) (by decide), hall h0 1 (by decide) (by decide),
        hall h0 2 (by decide) (by decide)⟩

/-- Instance of `backward_got_all_iff`: after one backoff the thread arrives at
the message with `mutex[1]` and `mutex[0]` only. -/
theorem backward_got_all_iff_witness :
    (2 : Int) ∉ (Locker.mk [0, 1] 1 3
      [Op.lock 2, Op.trylock 1 Status.ebusy, Op.backing_off 1, Op.unlock 2 true,
        Op.trylock 1 Status.ok, Op.trylock 0 Status.ok]).held :=
  (backward_got_all_iff busy_once 4 fresh _ (by decide)).2 (by decide)

/-! ## The backoff and the message "got all mutexes" -/

/-- C11 fails on the code. With the backoff enabled let the first
`pthread_mutex_trylock` report `EBUSY` and the later ones succeed. In its first
iteration `lock_forward` locks `mutex[0]`, backs off at 1 and unlocks `mutex[0]`,
then takes `mutex[1]` and `mutex[2]` and prints "got all mutexes, 1 backoffs"
holding these two only; it then unlocks `mutex[0]`, which it does not hold.
`lock_backward` does the same with `mutex[2]`. The whole functions
`lock_forward` and `lock_backward` begin with these ten steps. -/
theorem backoff_drops_mutex :
    (forward_iteration true busy_once 4 fresh).map Locker.log = some
        [Op.lock 0, Op.trylock 1 Status.ebusy, Op.backing_off 1, Op.unlock 0 true,
          Op.trylock 1 Status.ok, Op.trylock 2 Status.ok, Op.got_all 1 [2, 1],
          Op.unlock 2 true, Op.unlock 1 true, Op.unlock 0 false] ∧
      ¬ holds_all [2, 1] ∧
      (backward_iteration true busy_once 4 fresh).map Locker.log = some
        [Op.lock 2, Op.trylock 1 Status.ebusy, Op.backing_off 1, Op.unlock 2 true,
          Op.trylock 1 Status.ok, Op.trylock 0 Status.ok, Op.got_all 1 [0, 1],
          Op.unlock 0 true, Op.unlock 1 true, Op.unlock 2 false] ∧
      ¬ holds_all [0, 1] ∧
      (lock_forward true busy_once 4).map (fun l => l.log.take 10) =
        (forward_iteration true busy_once 4 fresh).map Locker.log ∧
      (lock_backward true busy_once 4).map (fun l => l.log.take 10) =
        (backward_iteration true busy_once 4 fresh).map Locker.log := by
  decide

end Backoff
